import Mathlib

/-!
Verification of the ENR (Ethereum Node Record) library.

Shallow embedding of `src/lib.rs` and `src/update.rs`:
byte strings are `List Nat` (each element a `u8` value), the content
`BTreeMap<Vec<u8>, Bytes>` is a strictly-sorted association list, RLP
encoding/decoding is embedded following the `rlp` crate as exercised by the
source, and the signature-scheme trait `EnrKey`/`EnrPublicKey` (the source is
generic over it) is a structure of abstract functions.
-/

set_option maxRecDepth 8000

deriving instance DecidableEq for Except

namespace EnrSpec

/-- Byte strings: each element is intended to be `< 256`. -/
abbrev Bytes := List Nat

/-- Lexicographic `<` on byte strings, as `Ord` on Rust `Vec<u8>`/`&[u8]`:
elementwise, with a proper prefix smaller than the longer string. -/
def ltBytes : Bytes → Bytes → Bool
  | [], [] => false
  | [], _ :: _ => true
  | _ :: _, [] => false
  | a :: as, b :: bs => if a < b then true else if b < a then false else ltBytes as bs

/-- Content maps (`BTreeMap<Key, Bytes>`): association lists kept strictly
sorted by `ltBytes` on keys. -/
abbrev Content := List (Bytes × Bytes)

/-- `BTreeMap::get`. -/
def lookupC : Content → Bytes → Option Bytes
  | [], _ => none
  | (k', v') :: t, k => if k = k' then some v' else lookupC t k

/-- `BTreeMap::insert`: returns the new map and the previous value at the key. -/
def insertC : Content → Bytes → Bytes → Content × Option Bytes
  | [], k, v => ([(k, v)], none)
  | (k', v') :: t, k, v =>
    if k = k' then ((k, v) :: t, some v')
    else if ltBytes k k' then ((k, v) :: (k', v') :: t, none)
    else
      let r := insertC t k v
      ((k', v') :: r.1, r.2)

/-- `BTreeMap::remove`: returns the new map and the removed value, if any. -/
def removeC : Content → Bytes → Content × Option Bytes
  | [], _ => ([], none)
  | (k', v') :: t, k =>
    if k = k' then (t, some v')
    else
      let r := removeC t k
      ((k', v') :: r.1, r.2)

/-- Keys of a content map in order. -/
def keysC (c : Content) : List Bytes := c.map Prod.fst

/-- Strict ascending key order, the `BTreeMap` iteration invariant. -/
def sortedC : Content → Bool
  | [] => true
  | [_] => true
  | a :: b :: t => ltBytes a.1 b.1 && sortedC (b :: t)

/- Big-endian minimal integer bytes. -/

/-- Fuel-driven helper so that the definition is structural and computable
by `decide`. -/
def beBytesAux : Nat → Nat → Bytes
  | 0, _ => []
  | f + 1, n => if n = 0 then [] else beBytesAux f (n / 256) ++ [n % 256]

/-- Minimal big-endian byte representation of a natural number (empty for 0),
as the `rlp` crate emits unsigned integers. -/
def beBytes (n : Nat) : Bytes := beBytesAux n n

/-- Big-endian value of a byte string. -/
def fromBE (bs : Bytes) : Nat := bs.foldl (fun a b => a * 256 + b) 0

/- RLP encoding, as produced by `RlpStream::append` for byte strings, unsigned
integers, and by `begin_list` for the enclosing list. -/

/-- RLP encoding of a byte string (`stream.append(&bytes)`): a lone byte below
0x80 is its own encoding, otherwise a length header is prepended. -/
def rlpStr (s : Bytes) : Bytes :=
  if s.length = 1 ∧ s.headD 0 < 128 then s
  else if s.length ≤ 55 then (128 + s.length) :: s
  else (183 + (beBytes s.length).length) :: (beBytes s.length ++ s)

/-- RLP list header prepended to an already-encoded payload. -/
def rlpList (p : Bytes) : Bytes :=
  if p.length ≤ 55 then (192 + p.length) :: p
  else (247 + (beBytes p.length).length) :: (beBytes p.length ++ p)

/-- RLP encoding of an unsigned integer (minimal big-endian byte string). -/
def rlpNat (n : Nat) : Bytes := rlpStr (beBytes n)

/-- A parsed RLP item: its kind, payload, and raw bytes (`Rlp::as_raw`). -/
structure Item where
  isList : Bool
  payload : Bytes
  raw : Bytes

deriving DecidableEq, Repr

/-- Parse the first RLP item of a byte string, following the header grammar of
the `rlp` crate (`PayloadInfo::from`): canonical checks are a nonzero first
length byte and a > 55 payload for long forms; every failure is `none`. -/
def parseItem (bs : Bytes) : Option (Item × Bytes) :=
  match bs with
  | [] => none
  | b :: t =>
    if b < 128 then some (⟨false, [b], [b]⟩, t)
    else if b ≤ 183 then
      let len := b - 128
      if t.length < len then none
      else some (⟨false, t.take len, b :: t.take len⟩, t.drop len)
    else if b ≤ 191 then
      let ll := b - 183
      if t.length < ll then none
      else if (t.take ll).headD 0 = 0 then none
      else
        let len := fromBE (t.take ll)
        if len ≤ 55 then none
        else if (t.drop ll).length < len then none
        else some (⟨false, (t.drop ll).take len, b :: (t.take ll ++ (t.drop ll).take len)⟩,
          (t.drop ll).drop len)
    else if b ≤ 247 then
      let len := b - 192
      if t.length < len then none
      else some (⟨true, t.take len, b :: t.take len⟩, t.drop len)
    else
      let ll := b - 247
      if t.length < ll then none
      else if (t.take ll).headD 0 = 0 then none
      else
        let len := fromBE (t.take ll)
        if len ≤ 55 then none
        else if (t.drop ll).length < len then none
        else some (⟨true, (t.drop ll).take len, b :: (t.take ll ++ (t.drop ll).take len)⟩,
          (t.drop ll).drop len)

/-- Fuel-driven scan of consecutive RLP items; models `Rlp::iter`/`item_count`
of the `rlp` crate: any malformed item makes the whole scan fail. -/
def parseItemsAux : Nat → Bytes → Option (List Item)
  | _, [] => some []
  | 0, _ :: _ => none
  | f + 1, b :: t =>
    match parseItem (b :: t) with
    | none => none
    | some (it, rest) => (parseItemsAux f rest).map (it :: ·)

/-- All RLP items of a byte string (the whole string must be consumed). -/
def parseItems (bs : Bytes) : Option (List Item) := parseItemsAux bs.length bs

/-- `Rlp::data()`: payload of a non-list item, rejecting a wrapped single byte
below 0x80 (`RlpInvalidIndirection` in `decode_value`). -/
def dataOf (it : Item) : Option Bytes :=
  if it.isList then none
  else if it.payload.length = 1 ∧ 1 < it.raw.length ∧ it.payload.headD 0 < 128 then none
  else some it.payload

/-- Unsigned-integer conversion of an item payload: rejects a leading zero byte
and payloads longer than `maxLen` (`impl Decodable` for uints). -/
def uintFromData (maxLen : Nat) (d : Bytes) : Option Nat :=
  if d ≠ [] ∧ d.headD 0 = 0 then none
  else if d.length ≤ maxLen then some (fromBE d) else none

/-- `as_val::<uN>()` on a parsed item. -/
def itemToUint (maxLen : Nat) (it : Item) : Option Nat := (dataOf it).bind (uintFromData maxLen)

/-- `rlp::decode` on a standalone byte string: only the first item of the
input is examined and any bytes after it are ignored — the `rlp` crate's
`decode_value` slices the payload out of the front of the buffer and never
compares the item's extent with the buffer's length (the trailing-data
rejection exists only in the top-level `Enr` decoder, which compares
`payload_info` against `as_raw().len()` itself). -/
def rlpDecodeItem (v : Bytes) : Option Item :=
  match parseItem v with
  | some (it, _) => some it
  | none => none

/-- `rlp::decode::<Vec<u8>>`-style data decoding. -/
def rlpDecodeData (v : Bytes) : Option Bytes := (rlpDecodeItem v).bind dataOf

/-- `rlp::decode::<u16>`. -/
def rlpDecodeU16 (v : Bytes) : Option Nat := (rlpDecodeData v).bind (uintFromData 2)

/- The ENR data model (`src/lib.rs`). -/

/-- Error type (`EnrError` together with `update::Error`; `error.rs` itself is
not in the sources, the variants are the ones constructed in `lib.rs` and
`update.rs`). -/
inductive EnrError where
  | exceedsMaxSize
  | sequenceNumberTooHigh
  | signingError
  | unsupportedIdentityScheme
  | invalidRlpData
  | invalidReservedKeyData

deriving DecidableEq, Repr

def MAX_ENR_SIZE : Nat := 300

def ID_ENR_KEY : Bytes := [105, 100]

def ENR_VERSION : Bytes := [118, 52]

def IP_ENR_KEY : Bytes := [105, 112]

def IP6_ENR_KEY : Bytes := [105, 112, 54]

def TCP_ENR_KEY : Bytes := [116, 99, 112]

def TCP6_ENR_KEY : Bytes := [116, 99, 112, 54]

def UDP_ENR_KEY : Bytes := [117, 100, 112]

def UDP6_ENR_KEY : Bytes := [117, 100, 112, 54]

def QUIC_ENR_KEY : Bytes := [113, 117, 105, 99]

def QUIC6_ENR_KEY : Bytes := [113, 117, 105, 99, 54]

/-- `check_spec_reserved_keys` of `lib.rs` (with the `quic` feature enabled). -/
def check_spec_reserved_keys (key value : Bytes) : Except EnrError Unit :=
  if key = TCP_ENR_KEY ∨ key = TCP6_ENR_KEY ∨ key = UDP_ENR_KEY ∨ key = UDP6_ENR_KEY ∨
      key = QUIC_ENR_KEY ∨ key = QUIC6_ENR_KEY then
    match rlpDecodeU16 value with
    | some _ => .ok ()
    | none => .error .invalidRlpData
  else if key = ID_ENR_KEY then
    match rlpDecodeData value with
    | none => .error .invalidRlpData
    | some d => if d = ENR_VERSION then .ok () else .error .unsupportedIdentityScheme
  else if key = IP_ENR_KEY then
    match rlpDecodeData value with
    | none => .error .invalidRlpData
    | some d => if d.length = 4 then .ok () else .error .invalidRlpData
  else if key = IP6_ENR_KEY then
    match rlpDecodeData value with
    | none => .error .invalidRlpData
    | some d => if d.length = 16 then .ok () else .error .invalidRlpData
  else .ok ()

/-- The capability surface of the `EnrKey`/`EnrPublicKey` traits (`keys.rs` is
not under the sources; the record is generic over it exactly as `Enr<K>` is
generic over `K: EnrKey`): verification, the content key name and encoding of
a public key, public-key resolution from content (`enr_to_public`), and
node-id derivation (`NodeId::from`, the keccak256 of the encoded key). -/
structure Scheme (P : Type) where
  pubVerify : P → Bytes → Bytes → Bool
  enrKeyName : P → Bytes
  pubEncode : P → Bytes
  enrToPublic : Content → Option P
  nodeIdOf : P → Bytes

/-- A signing key of a scheme: its public key and the (possibly failing)
`sign_v4` operation. -/
structure SigningKey (P : Type) where
  pub : P
  sign : Bytes → Option Bytes

/-- The `Enr` record: sequence number, cached node id, content map, and
signature. -/
structure Enr where
  seq : Nat
  node_id : Bytes
  content : Content
  signature : Bytes

deriving DecidableEq, Repr

/-- Concatenated `key ++ value` RLP pair encoding of the ordered content. -/
def contentPairsBytes : Content → Bytes
  | [] => []
  | (k, v) :: t => rlpStr k ++ v ++ contentPairsBytes t

/-- `append_rlp_content`: the list payload `[signature?, seq, k1, v1, ...]`. -/
def append_rlp_content (e : Enr) (includeSignature : Bool) : Bytes :=
  (if includeSignature then rlpStr e.signature else []) ++ rlpNat e.seq ++
    contentPairsBytes e.content

/-- `rlp::encode(&enr)` (`rlp_append` — signature included). -/
def enrEncode (e : Enr) : Bytes := rlpList (append_rlp_content e true)

/-- `Enr::rlp_content` (signature excluded; the signed payload). -/
def rlp_content (e : Enr) : Bytes := rlpList (append_rlp_content e false)

/-- `Enr::size`. -/
def enrSize (e : Enr) : Nat := (enrEncode e).length

/-- `Enr::get` restricted to a key: raw value looked up and decoded as data. -/
def getData (e : Enr) (k : Bytes) : Option Bytes := (lookupC e.content k).bind rlpDecodeData

variable {P : Type}

/-- `Enr::verify`. `public_key()` panics when no key resolves; that case is
unreachable for admitted records and is modeled as `false`. -/
def enrVerify (S : Scheme P) (e : Enr) : Bool :=
  match S.enrToPublic e.content with
  | none => false
  | some p =>
    match getData e ID_ENR_KEY with
    | some d => if d = ENR_VERSION then S.pubVerify p (rlp_content e) e.signature else false
    | none => false

/-- `Enr::compute_signature`. -/
def compute_signature (S : Scheme P) (sk : SigningKey P) (e : Enr) : Except EnrError Bytes :=
  match getData e ID_ENR_KEY with
  | some d =>
    if d = ENR_VERSION then
      match sk.sign (rlp_content e) with
      | some sig => .ok sig
      | none => .error .signingError
    else .error .unsupportedIdentityScheme
  | none => .error .unsupportedIdentityScheme

/-- `Enr::sign`: stores the new signature, returning the previous one. -/
def signEnr (S : Scheme P) (sk : SigningKey P) (e : Enr) : Except EnrError (Bytes × Enr) :=
  match compute_signature S sk e with
  | .error err => .error err
  | .ok newSig => .ok (e.signature, { e with signature := newSig })

def U64_LIMIT : Nat := 2 ^ 64

/-- `u64::checked_add(1)`. -/
def checked_add_one (s : Nat) : Option Nat := if s + 1 < U64_LIMIT then some (s + 1) else none

/-- Undo one `BTreeMap::insert` from its returned previous value. -/
def revertEntry (c : Content) (k : Bytes) (prev : Option Bytes) : Content :=
  match prev with
  | some v => (insertC c k v).1
  | none => (removeC c k).1

/-- `Enr::set_seq`: set `seq` to an arbitrary value, re-sign, check size. -/
def set_seq (S : Scheme P) (sk : SigningKey P) (e : Enr) (seq : Nat) :
    Except EnrError Unit × Enr :=
  let prevSeq := e.seq
  let e1 := { e with seq := seq }
  match signEnr S sk e1 with
  | .error err => (.error err, { e1 with seq := prevSeq })
  | .ok (prevSig, e2) =>
    if MAX_ENR_SIZE < enrSize e2 then
      (.error .exceedsMaxSize, { e2 with seq := prevSeq, signature := prevSig })
    else
      (.ok (), { e2 with node_id := S.nodeIdOf sk.pub })

/-- `Enr::insert_raw_rlp`. -/
def insert_raw_rlp (S : Scheme P) (sk : SigningKey P) (e : Enr) (k v : Bytes) :
    Except EnrError (Option Bytes) × Enr :=
  match check_spec_reserved_keys k v with
  | .error err => (.error err, e)
  | .ok _ =>
    let r1 := insertC e.content k v
    let pubK := S.enrKeyName sk.pub
    let r2 := insertC r1.1 pubK (rlpStr (S.pubEncode sk.pub))
    let e1 := { e with content := r2.1 }
    if MAX_ENR_SIZE < enrSize e1 then
      let c3 := revertEntry r2.1 pubK r2.2
      let c4 := revertEntry c3 k r1.2
      (.error .exceedsMaxSize, { e1 with content := c4 })
    else
      match checked_add_one e1.seq with
      | none => (.error .sequenceNumberTooHigh, e1)
      | some s2 =>
        let e2 := { e1 with seq := s2 }
        match signEnr S sk e2 with
        | .error err => (.error err, e2)
        | .ok (_, e3) =>
          let e4 := { e3 with node_id := S.nodeIdOf sk.pub }
          if MAX_ENR_SIZE < enrSize e4 then (.error .exceedsMaxSize, e4)
          else (.ok r1.2, e4)

/-- `Enr::insert` with a byte-string value (`rlp::encode` of a slice). -/
def insertBytesVal (S : Scheme P) (sk : SigningKey P) (e : Enr) (k rawv : Bytes) :
    Except EnrError (Option Bytes) × Enr :=
  insert_raw_rlp S sk e k (rlpStr rawv)

/-- `Enr::insert` with a `u16` value (the port setters `set_tcp4` etc.). -/
def insertU16Val (S : Scheme P) (sk : SigningKey P) (e : Enr) (k : Bytes) (n : Nat) :
    Except EnrError (Option Bytes) × Enr :=
  insert_raw_rlp S sk e k (rlpNat n)

/-- `Enr::set_socket` (the `is_tcp`/address-family flags select the keys).
The revert of a pre-existing ip value in the V6 branch inserts it under the
`"ip"` key, exactly as source lines 704-709 do. -/
def set_socket (S : Scheme P) (sk : SigningKey P) (e : Enr) (ipOctets : Bytes) (port : Nat)
    (isTcp : Bool) (isV6 : Bool) : Except EnrError Unit × Enr :=
  let portKey := if isTcp then (if isV6 then TCP6_ENR_KEY else TCP_ENR_KEY)
    else (if isV6 then UDP6_ENR_KEY else UDP_ENR_KEY)
  let ipKey := if isV6 then IP6_ENR_KEY else IP_ENR_KEY
  let rIp := insertC e.content ipKey (rlpStr ipOctets)
  let rPort := insertC rIp.1 portKey (rlpNat port)
  let pubK := S.enrKeyName sk.pub
  let rPub := insertC rPort.1 pubK (rlpStr (S.pubEncode sk.pub))
  let e1 := { e with content := rPub.1 }
  if MAX_ENR_SIZE < enrSize e1 then
    let c1 := revertEntry rPub.1 pubK rPub.2
    let c2 :=
      if isV6 then
        match rIp.2 with
        | some ip => (insertC c1 IP_ENR_KEY ip).1
        | none => (removeC c1 IP6_ENR_KEY).1
      else
        match rIp.2 with
        | some ip => (insertC c1 IP_ENR_KEY ip).1
        | none => (removeC c1 IP_ENR_KEY).1
    let c3 := revertEntry c2 portKey rPort.2
    (.error .exceedsMaxSize, { e1 with content := c3 })
  else
    match checked_add_one e1.seq with
    | none => (.error .sequenceNumberTooHigh, e1)
    | some s2 =>
      let e2 := { e1 with seq := s2 }
      match signEnr S sk e2 with
      | .error err => (.error err, e2)
      | .ok (_, e3) => (.ok (), { e3 with node_id := S.nodeIdOf sk.pub })

/-- The removal loop of `remove_insert`, collecting the previous values. -/
def removeAll : Content → List Bytes → Content × List (Option Bytes)
  | c, [] => (c, [])
  | c, k :: ks =>
    let r := removeC c k
    let rest := removeAll r.1 ks
    (rest.1, r.2 :: rest.2)

/-- The insertion loop of `remove_insert`: per pair, reject setting `"id"` to
anything but `"v4"`, RLP-encode the raw value, check the reserved-key grammar,
insert. Errors propagate (the caller restores the backup). -/
def insertAllChecked : Content → List (Bytes × Bytes) →
    Except EnrError (Content × List (Option Bytes))
  | c, [] => .ok (c, [])
  | c, (k, rawv) :: rest =>
    if k = ID_ENR_KEY ∧ rawv ≠ ENR_VERSION then .error .unsupportedIdentityScheme
    else
      match check_spec_reserved_keys k (rlpStr rawv) with
      | .error err => .error err
      | .ok _ =>
        let r := insertC c k (rlpStr rawv)
        match insertAllChecked r.1 rest with
        | .error err => .error err
        | .ok (c', prevs) => .ok (c', r.2 :: prevs)

/-- `Enr::remove_insert`. On any error the whole record is restored from the
initial clone (`enr_backup`). The `checked_add` result of the sequence-number
step is tested and discarded exactly as in the source (line 783): `seq` is
never assigned. -/
def remove_insert (S : Scheme P) (sk : SigningKey P) (e : Enr) (removeKeys : List Bytes)
    (ins : List (Bytes × Bytes)) :
    Except EnrError (List (Option Bytes) × List (Option Bytes)) × Enr :=
  let rm := removeAll e.content removeKeys
  let pubK := S.enrKeyName sk.pub
  let cPub := (insertC rm.1 pubK (rlpStr (S.pubEncode sk.pub))).1
  match insertAllChecked cPub ins with
  | .error err => (.error err, e)
  | .ok (c2, inserted) =>
    let e1 := { e with content := c2 }
    match checked_add_one e1.seq with
    | none => (.error .sequenceNumberTooHigh, e)
    | some _ =>
      match signEnr S sk e1 with
      | .error err => (.error err, e)
      | .ok (_, e2) =>
        let e3 := { e2 with node_id := S.nodeIdOf sk.pub }
        if MAX_ENR_SIZE < enrSize e3 then (.error .exceedsMaxSize, e)
        else (.ok (rm.2, inserted), e3)

/- The update guard (`src/update.rs`). -/

/-- An update intent (`ops::Update`): add/replace a value at a key (raw bytes,
to be RLP-encoded), or remove a key. -/
inductive Update where
  | insert (k rawv : Bytes)
  | remove (k : Bytes)

deriving DecidableEq, Repr

/-- A validated operation (`ops::Op`); an insert carries the encoded value. -/
inductive Op where
  | insert (k v : Bytes)
  | remove (k : Bytes)

deriving DecidableEq, Repr

/-- Modelled from the spec: `Update::to_valid_op` lives in `update/ops.rs`,
which is not among the sources. Per the spec's mutation contract, every
intent is "checked independently first (reserved-key grammar, rejection of
setting `id` to anything but `\"v4\"`)"; removals carry no value to check.
Values are RLP-encoded on admission as in `remove_insert`. -/
def to_valid_op : Update → Except EnrError Op
  | .remove k => .ok (.remove k)
  | .insert k rawv =>
    if k = ID_ENR_KEY ∧ rawv ≠ ENR_VERSION then .error .unsupportedIdentityScheme
    else
      match check_spec_reserved_keys k (rlpStr rawv) with
      | .error err => .error err
      | .ok _ => .ok (.insert k (rlpStr rawv))

/-- Modelled from the spec: `Op::apply_and_invert` (also in `update/ops.rs`):
apply one operation to the content and record its inverse, "prior value, or
was absent". -/
def apply_and_invert (op : Op) (c : Content) : Content × (Bytes × Option Bytes) :=
  match op with
  | .insert k v =>
    let r := insertC c k v
    (r.1, (k, r.2))
  | .remove k =>
    let r := removeC c k
    (r.1, (k, r.2))

/-- The `updates.into_iter().map(Update::to_valid_op).collect::<Result<..>>()`
step of `Guard::<Vec<Op>>::new`: all intents validated before any is applied. -/
def validateAll : List Update → Except EnrError (List Op)
  | [] => .ok []
  | u :: rest =>
    match to_valid_op u with
    | .error err => .error err
    | .ok op =>
      match validateAll rest with
      | .error err => .error err
      | .ok ops => .ok (op :: ops)

/-- The application fold of `Guard::<Vec<Op>>::new`, collecting inverses in
application order. -/
def applyAll : Content → List Op → Content × List (Bytes × Option Bytes)
  | c, [] => (c, [])
  | c, op :: ops =>
    let r := apply_and_invert op c
    let rest := applyAll r.1 ops
    (rest.1, r.2 :: rest.2)

/-- `Guard::<Vec<Op>>::new`: validate all updates, then apply them; on a
validation error the record is untouched (the `&mut Enr` state is threaded
explicitly). Returns the inverses and the resulting record. -/
def guard_new_vec (e : Enr) (updates : List Update) :
    Except EnrError (List (Bytes × Option Bytes)) × Enr :=
  match validateAll updates with
  | .error err => (.error err, e)
  | .ok ops =>
    let r := applyAll e.content ops
    (.ok r.2, { e with content := r.1 })

/-- `RevertOps`: the pending per-field undo data carried by a `Revert`. -/
structure RevertOps where
  key : Option Bytes
  seq : Option Nat
  signature : Option Bytes

deriving DecidableEq, Repr

/-- `Guard::finish`: the fixed finishing sequence. On failure the mutated
record is returned together with the error and the pending `RevertOps`
(the `Revert` value of the source; its application lives in the missing
`ops.rs`). On success the content inverses are returned and `node_id` is
updated last. -/
def guard_finish {I : Type} (S : Scheme P) (sk : SigningKey P) (e : Enr) (inverses : I) :
    Except (EnrError × RevertOps) I × Enr :=
  let pub := sk.pub
  let r := insertC e.content (S.enrKeyName pub) (rlpStr (S.pubEncode pub))
  let e1 := { e with content := r.1 }
  let rev1 : RevertOps := ⟨r.2, none, none⟩
  let rev2 : RevertOps := { rev1 with seq := some e1.seq }
  match checked_add_one e1.seq with
  | none => (.error (.sequenceNumberTooHigh, rev2), e1)
  | some s2 =>
    let e2 := { e1 with seq := s2 }
    let rev3 : RevertOps := { rev2 with signature := some e2.signature }
    match compute_signature S sk e2 with
    | .error _ => (.error (.signingError, rev3), e2)
    | .ok sig =>
      let e3 := { e2 with signature := sig }
      if MAX_ENR_SIZE < enrSize e3 then (.error (.exceedsMaxSize, rev3), e3)
      else (.ok inverses, { e3 with node_id := S.nodeIdOf pub })

/- Decoding (`impl rlp::Decodable for Enr`). -/

/-- Decoder error taxonomy; distinct constructors for the distinct rejection
sites of `decode` (the `rlp::DecoderError` values of the source). -/
inductive DecErr where
  | enrExceedsMaxSize
  | expectedList
  | inconsistentLengthAndData
  | listNotMultipleOfTwo
  | expectedData
  | invalidReservedKey
  | unsortedKeys
  | unsupportedScheme
  | invalidSignature
  | invalidStringLength
  | invalidBase64

deriving DecidableEq, Repr

/-- `Rlp::is_list`: nonempty input whose first byte is at least 0xc0. -/
def topIsList : Bytes → Bool
  | [] => false
  | b :: _ => 192 ≤ b

/-- The `prev.is_some() && prev >= Some(key)` sortedness rejection test. -/
def prevGeq : Option Bytes → Bytes → Bool
  | none, _ => false
  | some p, k => ! ltBytes p k

/-- The key/value decoding loop of `decode`: data of the key item, raw bytes of
the value item, reserved-key check, strict-ascending check against the
previous key, insertion into the content map. -/
def decodePairs : List Item → Option Bytes → Content → Except DecErr Content
  | [], _, acc => .ok acc
  | keyIt :: rest, prev, acc =>
    match dataOf keyIt with
    | none => .error .expectedData
    | some k =>
      match rest with
      | [] => .error .listNotMultipleOfTwo
      | valIt :: rest' =>
        match check_spec_reserved_keys k valIt.raw with
        | .error _ => .error .invalidReservedKey
        | .ok _ =>
          if prevGeq prev k then .error .unsortedKeys
          else decodePairs rest' (some k) (insertC acc k valIt.raw).1

/-- `rlp::Decodable::decode` for `Enr` (`lib.rs` lines 1265-1340): size bound,
list check, no trailing data, item scan and parity, signature and seq items,
the pair loop, public-key resolution, node-id derivation, and the final
signature verification. -/
def decode (S : Scheme P) (input : Bytes) : Except DecErr Enr :=
  if MAX_ENR_SIZE < input.length then .error .enrExceedsMaxSize
  else if ¬ topIsList input then .error .expectedList
  else
    match parseItem input with
    | none => .error .inconsistentLengthAndData
    | some (top, rest) =>
      if rest ≠ [] then .error .inconsistentLengthAndData
      else
        match parseItems top.payload with
        | none => .error .listNotMultipleOfTwo
        | some items =>
          if items.length = 0 ∨ items.length % 2 ≠ 0 then .error .listNotMultipleOfTwo
          else
            match items with
            | sigIt :: seqIt :: pairs =>
              match dataOf sigIt with
              | none => .error .expectedData
              | some signature =>
                match itemToUint 8 seqIt with
                | none => .error .expectedData
                | some seq =>
                  match decodePairs pairs none [] with
                  | .error err => .error err
                  | .ok content =>
                    match S.enrToPublic content with
                    | none => .error .unsupportedScheme
                    | some p =>
                      let enr : Enr := ⟨seq, S.nodeIdOf p, content, signature⟩
                      if enrVerify S enr then .ok enr else .error .invalidSignature
            | _ => .error .listNotMultipleOfTwo

/- Text form (`to_base64` / `FromStr`): URL-safe base64 without padding. -/

/-- Sextet value to URL-safe alphabet character code. -/
def b64Char (v : Nat) : Nat :=
  if v < 26 then 65 + v
  else if v < 52 then 97 + (v - 26)
  else if v < 62 then 48 + (v - 52)
  else if v = 62 then 45 else 95

/-- Character code to sextet value; `none` outside the URL-safe alphabet
(in particular for the padding character). -/
def b64Val (c : Nat) : Option Nat :=
  if 65 ≤ c ∧ c ≤ 90 then some (c - 65)
  else if 97 ≤ c ∧ c ≤ 122 then some (26 + (c - 97))
  else if 48 ≤ c ∧ c ≤ 57 then some (52 + (c - 48))
  else if c = 45 then some 62
  else if c = 95 then some 63
  else none

/-- URL-safe no-pad base64 encoding (character codes). -/
def b64encode : Bytes → Bytes
  | [] => []
  | [a] => [b64Char (a / 4), b64Char (a % 4 * 16)]
  | [a, b] => [b64Char (a / 4), b64Char (a % 4 * 16 + b / 16), b64Char (b % 16 * 4)]
  | a :: b :: c :: rest =>
    b64Char (a / 4) :: b64Char (a % 4 * 16 + b / 16) :: b64Char (b % 16 * 4 + c / 64) ::
      b64Char (c % 64) :: b64encode rest

/-- URL-safe no-pad base64 decoding: rejects out-of-alphabet characters,
a length of 1 mod 4, and nonzero trailing bits in a final partial group. -/
def b64decode : Bytes → Option Bytes
  | [] => some []
  | [_] => none
  | [c1, c2] =>
    match b64Val c1, b64Val c2 with
    | some v1, some v2 => if v2 % 16 = 0 then some [v1 * 4 + v2 / 16] else none
    | _, _ => none
  | [c1, c2, c3] =>
    match b64Val c1, b64Val c2, b64Val c3 with
    | some v1, some v2, some v3 =>
      if v3 % 4 = 0 then some [v1 * 4 + v2 / 16, v2 % 16 * 16 + v3 / 4] else none
    | _, _, _ => none
  | c1 :: c2 :: c3 :: c4 :: rest =>
    match b64Val c1, b64Val c2, b64Val c3, b64Val c4 with
    | some v1, some v2, some v3, some v4 =>
      (b64decode rest).map
        (fun bs => (v1 * 4 + v2 / 16) :: ((v2 % 16 * 16 + v3 / 4) :: ((v3 % 4 * 64 + v4) :: bs)))
    | _, _, _, _ => none

/-- The `"enr:"` text prefix (character codes). -/
def ENR_TEXT_PREFIX : Bytes := [101, 110, 114, 58]

/-- `Enr::to_base64`. -/
def to_base64 (e : Enr) : Bytes := ENR_TEXT_PREFIX ++ b64encode (enrEncode e)

/-- `FromStr::from_str` for `Enr`: length guard, optional `"enr:"` prefix,
base64 decode, RLP decode. -/
def from_str (S : Scheme P) (s : Bytes) : Except DecErr Enr :=
  if s.length < 4 then .error .invalidStringLength
  else
    let body := if s.take 4 = ENR_TEXT_PREFIX then s.drop 4 else s
    match b64decode body with
    | none => .error .invalidBase64
    | some bytes => decode S bytes

/- Structural invariants of a record. -/

/-- A byte string that is exactly one well-formed RLP item (content values are
"already-encoded sub-items"). -/
def isSingleItem (v : Bytes) : Bool :=
  match parseItem v with
  | some (_, []) => true
  | _ => false

/-- All elements are valid byte values. -/
def bytesLt256 (bs : Bytes) : Bool := bs.all (· < 256)

/-- The record invariants (spec section 3): `u64` sequence number, size within
the 300-byte ceiling, strictly sorted content of well-formed single-item
values made of bytes, a resolvable public key matching the cached `node_id`,
and a verifying signature (which subsumes `id = "v4"`). -/
def validEnrB (S : Scheme P) (e : Enr) : Bool :=
  decide (e.seq < U64_LIMIT) &&
  decide (enrSize e ≤ MAX_ENR_SIZE) &&
  sortedC e.content &&
  e.content.all (fun kv => isSingleItem kv.2 && bytesLt256 kv.1 && bytesLt256 kv.2 &&
    decide (check_spec_reserved_keys kv.1 kv.2 = .ok ())) &&
  bytesLt256 e.signature &&
  (match S.enrToPublic e.content with
   | some p => e.node_id == S.nodeIdOf p
   | none => false) &&
  enrVerify S e

/- `decodePairs` inversion lemmas. -/

/-- The data of the key items of an alternating key/value item list. -/
def pairKeys : List Item → List Bytes
  | keyIt :: _ :: rest => ((dataOf keyIt).getD []) :: pairKeys rest
  | _ => []

/-- The strict byte-lexicographic order as a relation. -/
def ltB (a b : Bytes) : Prop := ltBytes a b = true

/- Round-trip: the item list produced by encoding a content map. -/

/-- The item a well-formed single-item value byte string parses to. -/
def valItemOf (v : Bytes) : Item :=
  match parseItem v with
  | some (it, _) => it
  | none => ⟨false, [], []⟩

/-- The alternating key/value item list of an encoded content map. -/
def pairItems : Content → List Item
  | [] => []
  | (k, v) :: t => ⟨false, k, rlpStr k⟩ :: valItemOf v :: pairItems t

/- Mutation-operation lemmas. -/

/- Equality and hashing of records. -/

/-- `PartialEq for Enr` (`lib.rs` lines 1149-1153): equality compares only
`seq`, `node_id`, and `signature`; content is not compared. -/
def enrEq (a b : Enr) : Bool :=
  a.seq == b.seq && a.node_id == b.node_id && a.signature == b.signature

/-- The data fed to the hasher by `Hash for Enr` (`lib.rs` lines 1155-1163),
in order: `seq`, `node_id`, `signature`. Two records with equal hash data are
hashed identically by any hasher. -/
def enrHashData (e : Enr) : Nat × Bytes × Bytes := (e.seq, e.node_id, e.signature)

/- Concrete fixtures: a small scheme over `Nat` public keys and concrete
records used to evaluate the operations. -/

/-- A concrete scheme instance: the public-key entry lives under the content
key `"k"` (107), verification always succeeds, node ids are 32 copies of the
key byte. -/
def tScheme : Scheme Nat where
  pubVerify := fun _ _ _ => true
  enrKeyName := fun _ => [107]
  pubEncode := fun p => [p % 256]
  enrToPublic := fun c =>
    match lookupC c [107] with
    | some _ => some 7
    | none => none
  nodeIdOf := fun p => List.replicate 32 (p % 256)

/-- A signing key of `tScheme` producing a fixed 2-byte signature. -/
def tKey : SigningKey Nat := ⟨7, fun _ => some [9, 9]⟩

/-- A signing key whose signing operation always fails. -/
def tKeyBad : SigningKey Nat := ⟨7, fun _ => none⟩

/-- A signing key with a different public key whose signature is 300 bytes. -/
def tKeyBig : SigningKey Nat := ⟨8, fun _ => some (List.replicate 300 1)⟩

/-- A small valid record under `tScheme`. -/
def tEnr : Enr :=
  ⟨1, List.replicate 32 7, [(ID_ENR_KEY, rlpStr ENR_VERSION), ([107], rlpStr [7])], [9, 9]⟩

/-- `tEnr` with the sequence number at `u64::MAX`. -/
def tEnrMax : Enr := { tEnr with seq := 18446744073709551615 }

/-- A second valid record (different seq and an extra `udp` entry). -/
def tEnr2 : Enr :=
  ⟨5, List.replicate 32 7,
    [(ID_ENR_KEY, rlpStr ENR_VERSION), ([107], rlpStr [7]), (UDP_ENR_KEY, rlpNat 30303)],
    [9, 9]⟩

/-- `tEnr` with an extra content pair but the same seq, node id, signature. -/
def tEnrAltContent : Enr :=
  { tEnr with content :=
      [(ID_ENR_KEY, rlpStr ENR_VERSION), ([107], rlpStr [7]), ([120], rlpStr [1])] }

/- Claim theorems. -/

/- Theorems. -/

theorem ltBytes_trans {a b c : Bytes} (h1 : ltBytes a b = true)
    (h2 : ltBytes b c = true) : ltBytes a c = true := by
  induction a generalizing b c with
  | nil =>
    cases b with
    | nil => simp [ltBytes] at h1
    | cons bh bt =>
      cases c with
      | nil => simp [ltBytes] at h2
      | cons ch ct => simp [ltBytes]
  | cons ah at' ih =>
    cases b with
    | nil => simp [ltBytes] at h1
    | cons bh bt =>
      cases c with
      | nil => simp [ltBytes] at h2
      | cons ch ct =>
        simp only [ltBytes] at h1 h2 ⊢
        by_cases hab : ah < bh
        · by_cases hbc : bh < ch
          · simp [show ah < ch from by omega]
          · by_cases hcb : ch < bh
            · simp [hbc, hcb] at h2
            · simp [show ah < ch from by omega]
        · by_cases hba : bh < ah
          · simp [hab, hba] at h1
          · by_cases hbc : bh < ch
            · simp [show ah < ch from by omega]
            · by_cases hcb : ch < bh
              · simp [hbc, hcb] at h2
              · simp [hab, hba] at h1
                simp [hbc, hcb] at h2
                simp [show ¬ ah < ch from by omega, show ¬ ch < ah from by omega]
                exact ih h1 h2

theorem ltBytes_irrefl (a : Bytes) : ltBytes a a = false := by
  induction a with
  | nil => simp [ltBytes]
  | cons h t ih => simp [ltBytes, ih]

theorem beBytesAux_fuel : ∀ n f, n ≤ f → beBytesAux f n = beBytesAux n n := by
  intro n
  induction n using Nat.strong_induction_on with
  | _ n ih =>
    intro f hf
    match f, n with
    | 0, 0 => rfl
    | g + 1, 0 => simp [beBytesAux]
    | g + 1, m + 1 =>
      have hdiv : (m + 1) / 256 < m + 1 := Nat.div_lt_self (Nat.succ_pos m) (by norm_num)
      simp only [beBytesAux, if_neg (Nat.succ_ne_zero m)]
      rw [ih ((m + 1) / 256) hdiv g (by omega), ← ih ((m + 1) / 256) hdiv m (by omega)]

theorem beBytes_eq (n : Nat) :
    beBytes n = if n = 0 then [] else beBytes (n / 256) ++ [n % 256] := by
  match n with
  | 0 => rfl
  | m + 1 =>
    have hdiv : (m + 1) / 256 < m + 1 := Nat.div_lt_self (Nat.succ_pos m) (by norm_num)
    simp only [if_neg (Nat.succ_ne_zero m), beBytes]
    show beBytesAux (m + 1) (m + 1) = _
    simp only [beBytesAux, if_neg (Nat.succ_ne_zero m)]
    rw [beBytesAux_fuel ((m + 1) / 256) m (by omega)]

theorem fromBE_append_one (xs : Bytes) (b : Nat) :
    fromBE (xs ++ [b]) = fromBE xs * 256 + b := by
  simp [fromBE, List.foldl_append]

theorem fromBE_beBytes (n : Nat) : fromBE (beBytes n) = n := by
  induction n using Nat.strong_induction_on with
  | _ n ih =>
    rw [beBytes_eq]
    match n with
    | 0 => rfl
    | m + 1 =>
      have hdiv : (m + 1) / 256 < m + 1 := Nat.div_lt_self (Nat.succ_pos m) (by norm_num)
      simp only [if_neg (Nat.succ_ne_zero m)]
      rw [fromBE_append_one, ih _ hdiv]
      omega

theorem beBytes_head_pos (n : Nat) (h : n ≠ 0) : 0 < (beBytes n).headD 0 := by
  induction n using Nat.strong_induction_on with
  | _ n ih =>
    rw [beBytes_eq, if_neg h]
    by_cases hq : n / 256 = 0
    · have hn : n < 256 := by omega
      rw [hq]
      show 0 < (beBytes 0 ++ [n % 256]).headD 0
      have : beBytes 0 = [] := rfl
      rw [this]
      simpa [Nat.mod_eq_of_lt hn] using Nat.pos_of_ne_zero h
    · have hdiv : n / 256 < n := Nat.div_lt_self (Nat.pos_of_ne_zero h) (by norm_num)
      have := ih _ hdiv hq
      rcases hb : beBytes (n / 256) with _ | ⟨b, bs⟩
      · rw [hb] at this; simp at this
      · rw [hb] at this
        simpa using this

theorem beBytes_ne_nil (n : Nat) (h : n ≠ 0) : beBytes n ≠ [] := by
  rw [beBytes_eq, if_neg h]
  simp

theorem beBytes_length_le (n k : Nat) (h : n < 256 ^ k) : (beBytes n).length ≤ k := by
  induction n using Nat.strong_induction_on generalizing k with
  | _ n ih =>
    rw [beBytes_eq]
    by_cases hn : n = 0
    · simp [hn]
    · rw [if_neg hn]
      have hk : k ≠ 0 := by
        intro hk0
        rw [hk0] at h
        simp at h
        omega
      have hdiv : n / 256 < n := Nat.div_lt_self (Nat.pos_of_ne_zero hn) (by norm_num)
      have hq : n / 256 < 256 ^ (k - 1) := by
        have h256 : 256 ^ k = 256 ^ (k - 1) * 256 := by
          conv_lhs => rw [show k = (k - 1) + 1 from by omega]
          ring
        rw [h256] at h
        exact Nat.div_lt_of_lt_mul (by omega)
      have := ih _ hdiv (k - 1) hq
      simp only [List.length_append, List.length_singleton]
      omega

theorem beBytes_all_lt (n : Nat) : ∀ b ∈ beBytes n, b < 256 := by
  induction n using Nat.strong_induction_on with
  | _ n ih =>
    rw [beBytes_eq]
    by_cases hn : n = 0
    · simp [hn]
    · rw [if_neg hn]
      intro b hb
      rcases List.mem_append.mp hb with h1 | h2
      · exact ih _ (Nat.div_lt_self (Nat.pos_of_ne_zero hn) (by norm_num)) b h1
      · simp at h2
        subst h2
        exact Nat.mod_lt _ (by norm_num)

theorem parseItem_raw_append {bs : Bytes} {it : Item} {rest : Bytes}
    (h : parseItem bs = some (it, rest)) : it.raw ++ rest = bs := by
  match bs with
  | [] => simp [parseItem] at h
  | b :: t =>
    simp only [parseItem] at h
    split_ifs at h
    all_goals
      (injection h with h') <;>
        (injection h' with ha hb
         subst ha
         subst hb
         simp [List.append_assoc, List.take_append_drop])

theorem parseItem_raw_cons {bs : Bytes} {it : Item} {rest : Bytes}
    (h : parseItem bs = some (it, rest)) : ∃ c cs, it.raw = c :: cs := by
  match bs with
  | [] => simp [parseItem] at h
  | b :: t =>
    simp only [parseItem] at h
    split_ifs at h
    all_goals
      (injection h with h') <;>
        (injection h' with ha hb
         subst ha
         exact ⟨_, _, rfl⟩)

theorem parseItem_rest_length {bs : Bytes} {it : Item} {rest : Bytes}
    (h : parseItem bs = some (it, rest)) : rest.length < bs.length := by
  obtain ⟨c, cs, hraw⟩ := parseItem_raw_cons h
  have := parseItem_raw_append h
  have hlen : it.raw.length + rest.length = bs.length := by
    rw [← this, List.length_append]
  rw [hraw] at hlen
  simp at hlen
  omega

theorem parseItem_append_tail {bs tl : Bytes} {it : Item} {rest : Bytes}
    (h : parseItem bs = some (it, rest)) :
    parseItem (bs ++ tl) = some (it, rest ++ tl) := by
  match bs with
  | [] => simp [parseItem] at h
  | b :: t =>
    simp only [parseItem] at h
    simp only [List.cons_append, parseItem]
    split_ifs at h
    all_goals (injection h with h')
    · -- single byte below 128
      injection h' with ha hb
      subst ha
      subst hb
      rw [if_pos (show b < 128 by assumption)]
    · -- short string
      injection h' with ha hb
      subst ha
      subst hb
      have hle : b - 128 ≤ t.length := by omega
      rw [if_neg (show ¬ b < 128 by assumption), if_pos (show b ≤ 183 by assumption),
        if_neg (show ¬ (t ++ tl).length < b - 128 by simp only [List.length_append]; omega),
        List.take_append_of_le_length hle, List.drop_append_of_le_length hle]
    · -- long string
      injection h' with ha hb
      subst ha
      subst hb
      have hll : b - 183 ≤ t.length := by omega
      have hlen2 : fromBE (t.take (b - 183)) ≤ (t.drop (b - 183)).length := by omega
      rw [if_neg (show ¬ b < 128 by assumption), if_neg (show ¬ b ≤ 183 by assumption),
        if_pos (show b ≤ 191 by assumption),
        if_neg (show ¬ (t ++ tl).length < b - 183 by simp only [List.length_append]; omega),
        List.take_append_of_le_length hll,
        if_neg (show ¬ (t.take (b - 183)).headD 0 = 0 by assumption),
        if_neg (show ¬ fromBE (t.take (b - 183)) ≤ 55 by assumption),
        List.drop_append_of_le_length hll,
        if_neg (show ¬ (t.drop (b - 183) ++ tl).length < fromBE (t.take (b - 183)) by
          simp only [List.length_append]; omega),
        List.take_append_of_le_length hlen2, List.drop_append_of_le_length hlen2]
    · -- short list
      injection h' with ha hb
      subst ha
      subst hb
      have hle : b - 192 ≤ t.length := by omega
      rw [if_neg (show ¬ b < 128 by assumption), if_neg (show ¬ b ≤ 183 by assumption),
        if_neg (show ¬ b ≤ 191 by assumption), if_pos (show b ≤ 247 by assumption),
        if_neg (show ¬ (t ++ tl).length < b - 192 by simp only [List.length_append]; omega),
        List.take_append_of_le_length hle, List.drop_append_of_le_length hle]
    · -- long list
      injection h' with ha hb
      subst ha
      subst hb
      have hll : b - 247 ≤ t.length := by omega
      have hlen2 : fromBE (t.take (b - 247)) ≤ (t.drop (b - 247)).length := by omega
      rw [if_neg (show ¬ b < 128 by assumption), if_neg (show ¬ b ≤ 183 by assumption),
        if_neg (show ¬ b ≤ 191 by assumption), if_neg (show ¬ b ≤ 247 by assumption),
        if_neg (show ¬ (t ++ tl).length < b - 247 by simp only [List.length_append]; omega),
        List.take_append_of_le_length hll,
        if_neg (show ¬ (t.take (b - 247)).headD 0 = 0 by assumption),
        if_neg (show ¬ fromBE (t.take (b - 247)) ≤ 55 by assumption),
        List.drop_append_of_le_length hll,
        if_neg (show ¬ (t.drop (b - 247) ++ tl).length < fromBE (t.take (b - 247)) by
          simp only [List.length_append]; omega),
        List.take_append_of_le_length hlen2, List.drop_append_of_le_length hlen2]

theorem parseItem_rlpStr (s : Bytes) (h : s.length < 256 ^ 8) :
    parseItem (rlpStr s) = some (⟨false, s, rlpStr s⟩, []) := by
  unfold rlpStr
  split_ifs with h1 h2
  · obtain ⟨hl, hh⟩ := h1
    obtain ⟨a, rfl⟩ := List.length_eq_one.mp hl
    simp only [List.headD] at hh
    simp [parseItem, hh]
  · have e1 : 128 + s.length - 128 = s.length := by omega
    simp only [parseItem, e1]
    rw [if_neg (show ¬ 128 + s.length < 128 by omega),
      if_pos (show 128 + s.length ≤ 183 by omega),
      if_neg (show ¬ s.length < s.length by omega),
      List.take_length, List.drop_length]
  · have hn : s.length ≠ 0 := by omega
    have hll1 : 1 ≤ (beBytes s.length).length := by
      have := beBytes_ne_nil s.length hn
      cases hb : beBytes s.length
      · exact absurd hb this
      · simp [hb]
    have hll8 : (beBytes s.length).length ≤ 8 := beBytes_length_le _ _ h
    have e1 : 183 + (beBytes s.length).length - 183 = (beBytes s.length).length := by omega
    simp only [parseItem, e1]
    rw [if_neg (show ¬ 183 + (beBytes s.length).length < 128 by omega),
      if_neg (show ¬ 183 + (beBytes s.length).length ≤ 183 by omega),
      if_pos (show 183 + (beBytes s.length).length ≤ 191 by omega),
      if_neg (show ¬ (beBytes s.length ++ s).length < (beBytes s.length).length by
        simp only [List.length_append]; omega),
      List.take_left, List.drop_left,
      if_neg (show ¬ (beBytes s.length).headD 0 = 0 by
        have := beBytes_head_pos s.length hn; omega),
      fromBE_beBytes,
      if_neg h2,
      if_neg (show ¬ s.length < s.length by omega),
      List.take_length, List.drop_length]

theorem parseItem_rlpList (p : Bytes) (h : p.length < 256 ^ 8) :
    parseItem (rlpList p) = some (⟨true, p, rlpList p⟩, []) := by
  unfold rlpList
  split_ifs with h1
  · have e1 : 192 + p.length - 192 = p.length := by omega
    simp only [parseItem, e1]
    rw [if_neg (show ¬ 192 + p.length < 128 by omega),
      if_neg (show ¬ 192 + p.length ≤ 183 by omega),
      if_neg (show ¬ 192 + p.length ≤ 191 by omega),
      if_pos (show 192 + p.length ≤ 247 by omega),
      if_neg (show ¬ p.length < p.length by omega),
      List.take_length, List.drop_length]
  · have hn : p.length ≠ 0 := by omega
    have hll1 : 1 ≤ (beBytes p.length).length := by
      have := beBytes_ne_nil p.length hn
      cases hb : beBytes p.length
      · exact absurd hb this
      · simp [hb]
    have hll8 : (beBytes p.length).length ≤ 8 := beBytes_length_le _ _ h
    have e1 : 247 + (beBytes p.length).length - 247 = (beBytes p.length).length := by omega
    simp only [parseItem, e1]
    rw [if_neg (show ¬ 247 + (beBytes p.length).length < 128 by omega),
      if_neg (show ¬ 247 + (beBytes p.length).length ≤ 183 by omega),
      if_neg (show ¬ 247 + (beBytes p.length).length ≤ 191 by omega),
      if_neg (show ¬ 247 + (beBytes p.length).length ≤ 247 by omega),
      if_neg (show ¬ (beBytes p.length ++ p).length < (beBytes p.length).length by
        simp only [List.length_append]; omega),
      List.take_left, List.drop_left,
      if_neg (show ¬ (beBytes p.length).headD 0 = 0 by
        have := beBytes_head_pos p.length hn; omega),
      fromBE_beBytes,
      if_neg h1,
      if_neg (show ¬ p.length < p.length by omega),
      List.take_length, List.drop_length]

theorem parseItemsAux_fuel : ∀ f g bs, bs.length ≤ f → bs.length ≤ g →
    parseItemsAux f bs = parseItemsAux g bs := by
  intro f
  induction f with
  | zero =>
    intro g bs hf _
    have : bs = [] := List.length_eq_zero.mp (by omega)
    subst this
    cases g <;> rfl
  | succ f ih =>
    intro g bs hf hg
    rcases bs with _ | ⟨b, t⟩
    · cases g <;> rfl
    · rcases g with _ | g'
      · simp at hg
      · simp only [parseItemsAux]
        rcases hp : parseItem (b :: t) with _ | ⟨it, rest⟩
        · rfl
        · have hr := parseItem_rest_length hp
          simp only [List.length_cons] at hf hg hr
          dsimp only
          rw [ih g' rest (by omega) (by omega)]

theorem parseItems_cons {v : Bytes} {it : Item} (hv : parseItem v = some (it, []))
    (bs : Bytes) : parseItems (v ++ bs) = (parseItems bs).map (it :: ·) := by
  have hv' := @parseItem_append_tail v bs it [] hv
  simp only [List.nil_append] at hv'
  rcases v with _ | ⟨b, t⟩
  · simp [parseItem] at hv
  · simp only [List.cons_append] at hv' ⊢
    unfold parseItems
    simp only [List.length_cons, parseItemsAux, hv']
    rw [parseItemsAux_fuel (t ++ bs).length bs.length bs
      (by simp only [List.length_append]; omega) le_rfl]

theorem dataOf_mk (b : Bool) (p r : Bytes) :
    dataOf ⟨b, p, r⟩ = if b then none
      else if p.length = 1 ∧ 1 < r.length ∧ p.headD 0 < 128 then none else some p := rfl

theorem dataOf_rlpStr (s : Bytes) : dataOf ⟨false, s, rlpStr s⟩ = some s := by
  rw [dataOf_mk]
  simp only [Bool.false_eq_true, if_false]
  split_ifs with h1
  · obtain ⟨hl, hraw, hh⟩ := h1
    rw [show rlpStr s = s from by unfold rlpStr; rw [if_pos ⟨hl, hh⟩], hl] at hraw
    omega
  · rfl

theorem itemToUint_beBytes (n maxLen : Nat) (h : n < 256 ^ maxLen) :
    itemToUint maxLen ⟨false, beBytes n, rlpStr (beBytes n)⟩ = some n := by
  unfold itemToUint
  rw [dataOf_rlpStr, Option.some_bind]
  unfold uintFromData
  rw [if_neg, if_pos (beBytes_length_le _ _ h), Option.some.injEq, fromBE_beBytes]
  intro ⟨hne, hz⟩
  have hn : n ≠ 0 := by
    intro h0
    subst h0
    exact hne rfl
  have := beBytes_head_pos n hn
  omega

/- Content-map lemmas. -/

theorem insertC_mem {c : Content} {k v : Bytes} {kv : Bytes × Bytes}
    (h : kv ∈ (insertC c k v).1) : kv ∈ c ∨ kv = (k, v) := by
  induction c with
  | nil =>
    simp [insertC] at h
    exact Or.inr h
  | cons hd t ih =>
    obtain ⟨k', v'⟩ := hd
    unfold insertC at h
    split_ifs at h with h1 h2
    · rcases List.mem_cons.mp h with h3 | h3
      · exact Or.inr h3
      · exact Or.inl (List.mem_cons_of_mem _ h3)
    · rcases List.mem_cons.mp h with h3 | h3
      · exact Or.inr h3
      · exact Or.inl h3
    · rcases List.mem_cons.mp h with h3 | h3
      · exact Or.inl (by simp [h3])
      · rcases ih h3 with h4 | h4
        · exact Or.inl (List.mem_cons_of_mem _ h4)
        · exact Or.inr h4

/-- Inserting a key greater than every key present appends at the end. -/
theorem insertC_append {c : Content} {k v : Bytes}
    (h : ∀ p ∈ c, ltBytes p.1 k = true) : insertC c k v = (c ++ [(k, v)], none) := by
  induction c with
  | nil => rfl
  | cons hd t ih =>
    obtain ⟨k', v'⟩ := hd
    have hk' : ltBytes k' k = true := h (k', v') (by simp)
    have hne : ¬ k = k' := by
      intro he
      subst he
      rw [ltBytes_irrefl] at hk'
      exact Bool.false_ne_true hk'
    have hnlt : ¬ ltBytes k k' = true := by
      intro hlt
      have := ltBytes_trans hlt hk'
      rw [ltBytes_irrefl] at this
      exact Bool.false_ne_true this
    unfold insertC
    rw [if_neg hne, if_neg hnlt, ih (fun p hp => h p (List.mem_cons_of_mem _ hp))]
    simp

/-- `insertC` followed by restoring the returned previous value is the
identity on the content. -/
theorem insertC_revert (c : Content) (k v : Bytes) :
    revertEntry (insertC c k v).1 k (insertC c k v).2 = c := by
  induction c with
  | nil => simp [insertC, revertEntry, removeC]
  | cons hd t ih =>
    obtain ⟨k', v'⟩ := hd
    unfold insertC
    split_ifs with h1 h2
    · subst h1
      simp [revertEntry, insertC]
    · simp [revertEntry, removeC, h1]
    · rcases hr : insertC t k v with ⟨c', prev⟩
      rw [hr] at ih
      cases prev with
      | none =>
        simpa [revertEntry, removeC, h1] using ih
      | some v0 =>
        simpa [revertEntry, insertC, h1, h2] using ih

theorem decodePairs_chain (items : List Item) (prev : Option Bytes) (acc c : Content)
    (h : decodePairs items prev acc = .ok c) :
    List.Chain' ltB (prev.toList ++ pairKeys items) := by
  suffices H : ∀ n (items : List Item), items.length ≤ n → ∀ (prev : Option Bytes)
      (acc c : Content), decodePairs items prev acc = .ok c →
      List.Chain' ltB (prev.toList ++ pairKeys items) from
    H items.length items le_rfl prev acc c h
  intro n
  induction n with
  | zero =>
    intro items hle prev acc c h
    have : items = [] := List.length_eq_zero.mp (by omega)
    subst this
    simp only [pairKeys, List.append_nil]
    cases prev <;> simp
  | succ n ih =>
    intro items hle prev acc c h
    match items with
    | [] =>
      simp only [pairKeys, List.append_nil]
      cases prev <;> simp
    | [keyIt] =>
      unfold decodePairs at h
      rcases hk : dataOf keyIt with _ | k
      · rw [hk] at h; injection h
      · rw [hk] at h; simp only at h; injection h
    | keyIt :: valIt :: rest =>
      unfold decodePairs at h
      rcases hk : dataOf keyIt with _ | k
      · rw [hk] at h; injection h
      · rw [hk] at h
        simp only at h
        rcases hc : check_spec_reserved_keys k valIt.raw with err | u
        · rw [hc] at h; injection h
        · rw [hc] at h
          simp only at h
          by_cases hprev : prevGeq prev k = true
          · rw [if_pos hprev] at h
            injection h
          · rw [if_neg hprev] at h
            have hlen : rest.length ≤ n := by
              simp only [List.length_cons] at hle
              omega
            have htail := ih rest hlen (some k) (insertC acc k valIt.raw).1 c h
            simp only [pairKeys, hk, Option.getD_some]
            cases prev with
            | none => simpa using htail
            | some p =>
              simp only [Option.toList_some, List.cons_append, List.nil_append] at htail ⊢
              refine List.Chain'.cons ?_ htail
              simp only [prevGeq, Bool.not_eq_true, Bool.not_eq_true'] at hprev
              simpa [ltB] using hprev

theorem decodePairs_checks (items : List Item) (prev : Option Bytes) (acc c : Content)
    (h : decodePairs items prev acc = .ok c)
    (hacc : ∀ kv ∈ acc, check_spec_reserved_keys kv.1 kv.2 = .ok ()) :
    ∀ kv ∈ c, check_spec_reserved_keys kv.1 kv.2 = .ok () := by
  suffices H : ∀ n (items : List Item), items.length ≤ n → ∀ (prev : Option Bytes)
      (acc c : Content), decodePairs items prev acc = .ok c →
      (∀ kv ∈ acc, check_spec_reserved_keys kv.1 kv.2 = .ok ()) →
      ∀ kv ∈ c, check_spec_reserved_keys kv.1 kv.2 = .ok () from
    H items.length items le_rfl prev acc c h hacc
  intro n
  induction n with
  | zero =>
    intro items hle prev acc c h hacc
    have : items = [] := List.length_eq_zero.mp (by omega)
    subst this
    unfold decodePairs at h
    injection h with h'
    subst h'
    exact hacc
  | succ n ih =>
    intro items hle prev acc c h hacc
    match items with
    | [] =>
      unfold decodePairs at h
      injection h with h'
      subst h'
      exact hacc
    | [keyIt] =>
      unfold decodePairs at h
      rcases hk : dataOf keyIt with _ | k
      · rw [hk] at h; injection h
      · rw [hk] at h; simp only at h; injection h
    | keyIt :: valIt :: rest =>
      unfold decodePairs at h
      rcases hk : dataOf keyIt with _ | k
      · rw [hk] at h; injection h
      · rw [hk] at h
        simp only at h
        rcases hc : check_spec_reserved_keys k valIt.raw with err | u
        · rw [hc] at h; injection h
        · rw [hc] at h
          simp only at h
          by_cases hprev : prevGeq prev k = true
          · rw [if_pos hprev] at h
            injection h
          · rw [if_neg hprev] at h
            have hlen : rest.length ≤ n := by
              simp only [List.length_cons] at hle
              omega
            refine ih rest hlen (some k) _ c h ?_
            intro kv hkv
            rcases insertC_mem hkv with h1 | h1
            · exact hacc kv h1
            · subst h1
              cases u
              exact hc

theorem valItemOf_spec {v : Bytes} (h : isSingleItem v = true) :
    parseItem v = some (valItemOf v, []) ∧ (valItemOf v).raw = v := by
  unfold isSingleItem at h
  rcases hp : parseItem v with _ | ⟨it, rest⟩
  · rw [hp] at h; simp at h
  · rcases rest with _ | ⟨r, rs⟩
    · have hraw := parseItem_raw_append hp
      simp only [List.append_nil] at hraw
      unfold valItemOf
      rw [hp]
      exact ⟨rfl, hraw⟩
    · rw [hp] at h; simp at h

theorem ltB_trans {a b c : Bytes} (h1 : ltB a b) (h2 : ltB b c) : ltB a c :=
  ltBytes_trans h1 h2

theorem chain_head_lt {k : Bytes} {ks : List Bytes}
    (h : List.Chain' ltB (k :: ks)) : ∀ x ∈ ks, ltB k x := by
  induction ks generalizing k with
  | nil => intro x hx; simp at hx
  | cons x t ih =>
    intro y hy
    have h1 : ltB k x := (List.chain'_cons.mp h).1
    have h2 : List.Chain' ltB (x :: t) := (List.chain'_cons.mp h).2
    rcases List.mem_cons.mp hy with rfl | hy'
    · exact h1
    · exact ltB_trans h1 (ih h2 y hy')

theorem decodePairs_encode (cs : Content) : ∀ (prev : Option Bytes) (acc : Content),
    (∀ kv ∈ cs, check_spec_reserved_keys kv.1 kv.2 = .ok () ∧ isSingleItem kv.2 = true) →
    List.Chain' ltB (prev.toList ++ keysC cs) →
    (∀ p ∈ acc, ∀ q ∈ cs, ltB p.1 q.1) →
    decodePairs (pairItems cs) prev acc = .ok (acc ++ cs) := by
  induction cs with
  | nil =>
    intro prev acc _ _ _
    simp [pairItems, decodePairs]
  | cons hd rest ih =>
    obtain ⟨k, v⟩ := hd
    intro prev acc hck hchain hacc
    have hkv := hck (k, v) (by simp)
    obtain ⟨hvparse, hvraw⟩ := valItemOf_spec hkv.2
    simp only [pairItems, decodePairs, dataOf_rlpStr, hvraw]
    rw [hkv.1]
    simp only
    have hchainK : List.Chain' ltB (k :: keysC rest) := by
      cases prev with
      | none => simpa [keysC] using hchain
      | some p =>
        simp only [Option.toList_some, List.cons_append, List.nil_append, keysC,
          List.map_cons] at hchain
        exact (List.chain'_cons.mp hchain).2
    have hprev : ¬ prevGeq prev k = true := by
      cases prev with
      | none => simp [prevGeq]
      | some p =>
        simp only [Option.toList_some, List.cons_append, List.nil_append, keysC,
          List.map_cons] at hchain
        have hlt : ltBytes p k = true := (List.chain'_cons.mp hchain).1
        simp [prevGeq, hlt]
    rw [if_neg hprev]
    have hins : insertC acc k v = (acc ++ [(k, v)], none) :=
      insertC_append (fun p hp => hacc p hp (k, v) (by simp))
    rw [hins]
    simp only
    rw [ih (some k) (acc ++ [(k, v)])
      (fun kv hkv' => hck kv (List.mem_cons_of_mem _ hkv'))
      (by simpa using hchainK)
      ?_]
    · rw [List.append_assoc]
      rfl
    · intro p hp q hq
      rcases List.mem_append.mp hp with h1 | h1
      · exact hacc p h1 q (List.mem_cons_of_mem _ hq)
      · have : p = (k, v) := by simpa using h1
        subst this
        exact chain_head_lt hchainK q.1 (List.mem_map_of_mem Prod.fst hq)

/- Length and byte-range facts about the encoders. -/

theorem rlpStr_length_ge (s : Bytes) : s.length ≤ (rlpStr s).length := by
  unfold rlpStr
  split_ifs with h1 h2
  · exact le_rfl
  · simp
  · simp only [List.length_cons, List.length_append]
    omega

theorem rlpList_length_ge (p : Bytes) : p.length ≤ (rlpList p).length := by
  unfold rlpList
  split_ifs with h1
  · simp
  · simp only [List.length_cons, List.length_append]
    omega

theorem contentPairs_bound {cs : Content} :
    ∀ kv ∈ cs, (rlpStr kv.1).length + kv.2.length ≤ (contentPairsBytes cs).length := by
  induction cs with
  | nil => intro kv h; simp at h
  | cons hd t ih =>
    obtain ⟨k, v⟩ := hd
    intro kv hkv
    simp only [contentPairsBytes, List.length_append]
    rcases List.mem_cons.mp hkv with rfl | h1
    · dsimp only
      omega
    · have := ih kv h1
      omega

theorem lt256_rlpStr {s : Bytes} (h1 : s.length < 65536) (h2 : ∀ b ∈ s, b < 256) :
    ∀ b ∈ rlpStr s, b < 256 := by
  unfold rlpStr
  split_ifs with ha hb
  · exact h2
  · intro b hb'
    rcases List.mem_cons.mp hb' with rfl | h3
    · omega
    · exact h2 b h3
  · intro b hb'
    have hll : (beBytes s.length).length ≤ 2 := beBytes_length_le _ 2 (by norm_num; omega)
    rcases List.mem_cons.mp hb' with rfl | h3
    · omega
    · rcases List.mem_append.mp h3 with h4 | h4
      · exact beBytes_all_lt _ b h4
      · exact h2 b h4

theorem lt256_rlpList {p : Bytes} (h1 : p.length < 65536) (h2 : ∀ b ∈ p, b < 256) :
    ∀ b ∈ rlpList p, b < 256 := by
  unfold rlpList
  split_ifs with ha
  · intro b hb'
    rcases List.mem_cons.mp hb' with rfl | h3
    · omega
    · exact h2 b h3
  · intro b hb'
    have hll : (beBytes p.length).length ≤ 2 := beBytes_length_le _ 2 (by norm_num; omega)
    rcases List.mem_cons.mp hb' with rfl | h3
    · omega
    · rcases List.mem_append.mp h3 with h4 | h4
      · exact beBytes_all_lt _ b h4
      · exact h2 b h4

theorem lt256_contentPairs {cs : Content}
    (h : ∀ kv ∈ cs, kv.1.length < 65536 ∧ (∀ b ∈ kv.1, b < 256) ∧ (∀ b ∈ kv.2, b < 256)) :
    ∀ b ∈ contentPairsBytes cs, b < 256 := by
  induction cs with
  | nil => intro b hb; simp [contentPairsBytes] at hb
  | cons hd t ih =>
    obtain ⟨k, v⟩ := hd
    intro b hb
    obtain ⟨hk1, hk2, hv2⟩ := h (k, v) (by simp)
    simp only [contentPairsBytes, List.append_assoc, List.mem_append] at hb
    rcases hb with h1 | h2 | h3
    · exact lt256_rlpStr hk1 hk2 b h1
    · exact hv2 b h2
    · exact ih (fun kv hkv => h kv (List.mem_cons_of_mem _ hkv)) b h3

/-- Every byte of the binary encoding of a size-bounded record with in-range
component bytes is a valid byte. -/
theorem lt256_enrEncode {e : Enr}
    (hsize : enrSize e ≤ MAX_ENR_SIZE)
    (hsig : ∀ b ∈ e.signature, b < 256)
    (hcs : ∀ kv ∈ e.content, (∀ b ∈ kv.1, b < 256) ∧ (∀ b ∈ kv.2, b < 256)) :
    ∀ b ∈ enrEncode e, b < 256 := by
  have hpay : enrEncode e = rlpList (append_rlp_content e true) := rfl
  have hpaylen : (append_rlp_content e true).length ≤ MAX_ENR_SIZE := by
    have := rlpList_length_ge (append_rlp_content e true)
    unfold enrSize at hsize
    rw [hpay] at hsize
    omega
  have hparts : append_rlp_content e true =
      rlpStr e.signature ++ rlpNat e.seq ++ contentPairsBytes e.content := by
    simp [append_rlp_content]
  have hkeylen : ∀ kv ∈ e.content, kv.1.length < 65536 := by
    intro kv hkv
    have h1 := contentPairs_bound kv hkv
    have h2 : (contentPairsBytes e.content).length ≤ (append_rlp_content e true).length := by
      rw [hparts]
      simp only [List.length_append]
      omega
    have h3 := rlpStr_length_ge kv.1
    unfold MAX_ENR_SIZE at hpaylen
    omega
  have hpaybytes : ∀ b ∈ append_rlp_content e true, b < 256 := by
    rw [hparts]
    intro b hb
    have hsiglen : e.signature.length < 65536 := by
      have h1 := rlpStr_length_ge e.signature
      have h2 : (rlpStr e.signature).length ≤ (append_rlp_content e true).length := by
        rw [hparts]
        simp only [List.length_append]
        omega
      unfold MAX_ENR_SIZE at hpaylen
      omega
    simp only [List.append_assoc, List.mem_append] at hb
    rcases hb with h1 | h2 | h3
    · exact lt256_rlpStr hsiglen hsig b h1
    · refine lt256_rlpStr ?_ (beBytes_all_lt _) b h2
      calc (beBytes e.seq).length ≤ (rlpNat e.seq).length := rlpStr_length_ge _
        _ ≤ (append_rlp_content e true).length := by
            rw [hparts]; simp only [List.length_append]; omega
        _ < 65536 := by unfold MAX_ENR_SIZE at hpaylen; omega
    · exact lt256_contentPairs
        (fun kv hkv => ⟨hkeylen kv hkv, (hcs kv hkv).1, (hcs kv hkv).2⟩) b h3
  rw [hpay]
  exact lt256_rlpList (by unfold MAX_ENR_SIZE at hpaylen; omega) hpaybytes

/- Base64 round trip. -/

theorem b64Val_b64Char : ∀ v < 64, b64Val (b64Char v) = some v := by decide

theorem b64_roundtrip : ∀ (bs : Bytes), (∀ b ∈ bs, b < 256) →
    b64decode (b64encode bs) = some bs := by
  suffices H : ∀ n (bs : Bytes), bs.length ≤ n → (∀ b ∈ bs, b < 256) →
      b64decode (b64encode bs) = some bs from
    fun bs h => H bs.length bs le_rfl h
  intro n
  induction n with
  | zero =>
    intro bs hle _
    have : bs = [] := List.length_eq_zero.mp (by omega)
    subst this
    rfl
  | succ n ih =>
    intro bs hle hbytes
    match bs with
    | [] => rfl
    | [a] =>
      have ha : a < 256 := hbytes a (by simp)
      simp only [b64encode, b64decode]
      rw [b64Val_b64Char _ (by omega), b64Val_b64Char _ (by omega)]
      simp only
      rw [if_pos (by omega)]
      simp only [Option.some.injEq, List.cons.injEq, and_true]
      omega
    | [a, b] =>
      have ha : a < 256 := hbytes a (by simp)
      have hb : b < 256 := hbytes b (by simp)
      simp only [b64encode, b64decode]
      rw [b64Val_b64Char _ (by omega), b64Val_b64Char _ (by omega),
        b64Val_b64Char _ (by omega)]
      simp only
      rw [if_pos (by omega)]
      simp only [Option.some.injEq, List.cons.injEq, and_true]
      omega
    | a :: b :: c :: rest =>
      have ha : a < 256 := hbytes a (by simp)
      have hb : b < 256 := hbytes b (by simp)
      have hc : c < 256 := hbytes c (by simp)
      have hlen : rest.length ≤ n := by
        have h' : (a :: b :: c :: rest).length ≤ n + 1 := hle
        simp only [List.length_cons] at h'
        omega
      have hrest := ih rest hlen (fun x hx => hbytes x (by simp [hx]))
      simp only [b64encode, b64decode]
      rw [b64Val_b64Char _ (by omega), b64Val_b64Char _ (by omega),
        b64Val_b64Char _ (by omega), b64Val_b64Char _ (by omega)]
      simp only [hrest, Option.map_some', Option.some.injEq, List.cons.injEq, and_true]
      omega

/- Decoding the canonical encoding of a valid record. -/

theorem sortedC_chain {cs : Content} (h : sortedC cs = true) : List.Chain' ltB (keysC cs) := by
  induction cs with
  | nil => simp [keysC]
  | cons hd t ih =>
    cases t with
    | nil => simp [keysC]
    | cons hd2 t2 =>
      unfold sortedC at h
      simp only [Bool.and_eq_true] at h
      have htail := ih h.2
      simp only [keysC, List.map_cons] at htail ⊢
      exact List.chain'_cons.mpr ⟨h.1, htail⟩

theorem validEnrB_parts {S : Scheme P} {e : Enr} (h : validEnrB S e = true) :
    e.seq < U64_LIMIT ∧ enrSize e ≤ MAX_ENR_SIZE ∧ sortedC e.content = true ∧
    (∀ kv ∈ e.content, isSingleItem kv.2 = true ∧ (∀ b ∈ kv.1, b < 256) ∧
      (∀ b ∈ kv.2, b < 256) ∧ check_spec_reserved_keys kv.1 kv.2 = .ok ()) ∧
    (∀ b ∈ e.signature, b < 256) ∧
    (∃ p, S.enrToPublic e.content = some p ∧ e.node_id = S.nodeIdOf p) ∧
    enrVerify S e = true := by
  unfold validEnrB at h
  simp only [Bool.and_eq_true, decide_eq_true_eq, List.all_eq_true, bytesLt256] at h
  obtain ⟨⟨⟨⟨⟨⟨h1, h2⟩, h3⟩, h4⟩, h5⟩, h6⟩, h7⟩ := h
  refine ⟨h1, h2, h3, ?_, ?_, ?_, h7⟩
  · intro kv hkv
    have := h4 kv hkv
    simp only [Bool.and_eq_true, decide_eq_true_eq, List.all_eq_true] at this
    exact ⟨this.1.1.1, this.1.1.2, this.1.2, this.2⟩
  · simpa using h5
  · rcases hp : S.enrToPublic e.content with _ | p
    · rw [hp] at h6
      exact absurd h6 (by simp)
    · rw [hp] at h6
      exact ⟨p, rfl, by simpa using h6⟩

theorem pairItems_length (cs : Content) : (pairItems cs).length = 2 * cs.length := by
  induction cs with
  | nil => rfl
  | cons hd t ih =>
    obtain ⟨k, v⟩ := hd
    simp only [pairItems, List.length_cons, ih, List.length_cons]
    omega

theorem parseItems_pairsEnc (cs : Content)
    (hpairs : ∀ kv ∈ cs, isSingleItem kv.2 = true ∧ kv.1.length < 256 ^ 8) :
    parseItems (contentPairsBytes cs) = some (pairItems cs) := by
  induction cs with
  | nil => rfl
  | cons hd t ih =>
    obtain ⟨k, v⟩ := hd
    obtain ⟨hv, hk⟩ := hpairs (k, v) (by simp)
    obtain ⟨hvp, _⟩ := valItemOf_spec hv
    simp only [contentPairsBytes, pairItems]
    rw [List.append_assoc, parseItems_cons (parseItem_rlpStr k hk),
      parseItems_cons hvp, ih (fun kv hkv => hpairs kv (List.mem_cons_of_mem _ hkv))]
    rfl

theorem topIsList_rlpList (p : Bytes) : topIsList (rlpList p) = true := by
  unfold rlpList topIsList
  split_ifs with h1
  · simp
  · simp only [decide_eq_true_eq]
    omega

theorem payload_len_le {e : Enr} (hsize : enrSize e ≤ MAX_ENR_SIZE) :
    (append_rlp_content e true).length ≤ 300 := by
  have h1 := rlpList_length_ge (append_rlp_content e true)
  have h2 : enrSize e = (rlpList (append_rlp_content e true)).length := rfl
  unfold MAX_ENR_SIZE at hsize
  omega

theorem sig_len_le {e : Enr} (hsize : enrSize e ≤ MAX_ENR_SIZE) :
    e.signature.length ≤ 300 := by
  have hpay := payload_len_le hsize
  have hparts : append_rlp_content e true =
      rlpStr e.signature ++ rlpNat e.seq ++ contentPairsBytes e.content := by
    simp [append_rlp_content]
  have h3 := rlpStr_length_ge e.signature
  have h4 : (rlpStr e.signature).length ≤ (append_rlp_content e true).length := by
    rw [hparts]
    simp only [List.length_append]
    omega
  omega

theorem key_len_le {e : Enr} (hsize : enrSize e ≤ MAX_ENR_SIZE) :
    ∀ kv ∈ e.content, kv.1.length ≤ 300 := by
  intro kv hkv
  have hpay := payload_len_le hsize
  have hparts : append_rlp_content e true =
      rlpStr e.signature ++ rlpNat e.seq ++ contentPairsBytes e.content := by
    simp [append_rlp_content]
  have h1 := contentPairs_bound kv hkv
  have h2 : (contentPairsBytes e.content).length ≤ (append_rlp_content e true).length := by
    rw [hparts]
    simp only [List.length_append]
    omega
  have h3 := rlpStr_length_ge kv.1
  omega

/-- Decoding the binary encoding of a record satisfying the invariants
returns exactly that record. -/
theorem decode_enrEncode {S : Scheme P} {e : Enr} (h : validEnrB S e = true) :
    decode S (enrEncode e) = .ok e := by
  obtain ⟨hseq, hsize, hsorted, hpairsAll, hsigB, ⟨p, hp, hnid⟩, hver⟩ := validEnrB_parts h
  have hpaylen := payload_len_le hsize
  have hpow : (256 : Nat) ^ 8 = 18446744073709551616 := by norm_num
  have h8 : (256 : Nat) ^ 8 = 2 ^ 64 := by norm_num
  have hsig8 : e.signature.length < 256 ^ 8 := by
    have := sig_len_le hsize
    omega
  have hseq8 : (beBytes e.seq).length < 256 ^ 8 := by
    have := beBytes_length_le e.seq 8 (by rw [h8]; exact hseq)
    omega
  have hitems : parseItems (append_rlp_content e true) =
      some (⟨false, e.signature, rlpStr e.signature⟩ ::
        ⟨false, beBytes e.seq, rlpNat e.seq⟩ :: pairItems e.content) := by
    have hparts : append_rlp_content e true =
        rlpStr e.signature ++ rlpNat e.seq ++ contentPairsBytes e.content := by
      simp [append_rlp_content]
    rw [hparts, show rlpNat e.seq = rlpStr (beBytes e.seq) from rfl, List.append_assoc,
      parseItems_cons (parseItem_rlpStr _ hsig8),
      parseItems_cons (parseItem_rlpStr _ hseq8),
      parseItems_pairsEnc e.content (fun kv hkv =>
        ⟨(hpairsAll kv hkv).1, by have := key_len_le hsize kv hkv; omega⟩)]
    rfl
  have henc : enrEncode e = rlpList (append_rlp_content e true) := rfl
  unfold decode
  rw [if_neg (show ¬ MAX_ENR_SIZE < (enrEncode e).length by
    unfold enrSize at hsize; omega)]
  rw [if_neg (show ¬ ¬ topIsList (enrEncode e) = true by
    rw [henc, topIsList_rlpList]; simp)]
  rw [henc, parseItem_rlpList _ (by omega)]
  try dsimp only
  rw [if_neg (by simp), hitems]
  try dsimp only
  rw [if_neg (show ¬ ((⟨false, e.signature, rlpStr e.signature⟩ ::
      ⟨false, beBytes e.seq, rlpNat e.seq⟩ :: pairItems e.content : List Item).length = 0 ∨
      (⟨false, e.signature, rlpStr e.signature⟩ ::
      ⟨false, beBytes e.seq, rlpNat e.seq⟩ :: pairItems e.content : List Item).length % 2 ≠ 0) by
    simp only [List.length_cons, pairItems_length]
    omega)]
  try dsimp only
  rw [dataOf_rlpStr]
  try dsimp only
  rw [show rlpNat e.seq = rlpStr (beBytes e.seq) from rfl,
    itemToUint_beBytes e.seq 8 (by rw [h8]; exact hseq)]
  try dsimp only
  rw [decodePairs_encode e.content none []
    (fun kv hkv => ⟨(hpairsAll kv hkv).2.2.2, (hpairsAll kv hkv).1⟩)
    (by simpa using sortedC_chain hsorted)
    (by simp)]
  try dsimp only
  rw [List.nil_append, hp]
  try dsimp only
  rw [← hnid]
  rw [if_pos (show enrVerify S ⟨e.seq, e.node_id, e.content, e.signature⟩ = true from hver)]

/-- Parsing the text form of a record satisfying the invariants returns
exactly that record. -/
theorem from_str_to_base64 {S : Scheme P} {e : Enr} (h : validEnrB S e = true) :
    from_str S (to_base64 e) = .ok e := by
  obtain ⟨_, hsize, _, hpairsAll, hsigB, _, _⟩ := validEnrB_parts h
  have hbytes := lt256_enrEncode hsize hsigB
    (fun kv hkv => ⟨(hpairsAll kv hkv).2.1, (hpairsAll kv hkv).2.2.1⟩)
  unfold from_str to_base64
  rw [if_neg (show ¬ (ENR_TEXT_PREFIX ++ b64encode (enrEncode e)).length < 4 by
    simp [ENR_TEXT_PREFIX])]
  have htake : (ENR_TEXT_PREFIX ++ b64encode (enrEncode e)).take 4 = ENR_TEXT_PREFIX :=
    List.take_left' rfl
  have hdrop : (ENR_TEXT_PREFIX ++ b64encode (enrEncode e)).drop 4 = b64encode (enrEncode e) :=
    List.drop_left' rfl
  rw [htake, if_pos rfl, hdrop]
  simp only [b64_roundtrip _ hbytes]
  exact decode_enrEncode h

/- Inversion of a successful decode. -/

theorem decode_ok_inv {S : Scheme P} {input : Bytes} {e : Enr}
    (h : decode S input = .ok e) :
    input.length ≤ MAX_ENR_SIZE ∧
    topIsList input = true ∧
    ∃ top items, parseItem input = some (top, []) ∧
      parseItems top.payload = some items ∧
      items.length ≠ 0 ∧ items.length % 2 = 0 ∧
      ∃ sigIt seqIt pairs, items = sigIt :: seqIt :: pairs ∧
        dataOf sigIt = some e.signature ∧
        itemToUint 8 seqIt = some e.seq ∧
        decodePairs pairs none [] = .ok e.content ∧
        ∃ p, S.enrToPublic e.content = some p ∧ e.node_id = S.nodeIdOf p ∧
          enrVerify S e = true := by
  unfold decode at h
  by_cases h1 : MAX_ENR_SIZE < input.length
  · rw [if_pos h1] at h; injection h
  rw [if_neg h1] at h
  by_cases h2 : ¬ topIsList input = true
  · rw [if_pos h2] at h; injection h
  rw [if_neg h2] at h
  have h2' : topIsList input = true := not_not.mp h2
  rcases hp : parseItem input with _ | ⟨top, rest⟩
  · rw [hp] at h; injection h
  rw [hp] at h
  simp only at h
  by_cases h3 : rest ≠ []
  · rw [if_pos h3] at h; injection h
  rw [if_neg h3] at h
  have hrest : rest = [] := by simpa using h3
  subst hrest
  rcases hi : parseItems top.payload with _ | items
  · rw [hi] at h; injection h
  rw [hi] at h
  simp only at h
  by_cases h4 : items.length = 0 ∨ items.length % 2 ≠ 0
  · rw [if_pos h4] at h; injection h
  rw [if_neg h4] at h
  push_neg at h4
  match items, h4, h with
  | [], h4, h => simp at h4
  | [_], h4, h => simp at h4
  | sigIt :: seqIt :: pairs, h4, h =>
    dsimp only at h
    rcases hs : dataOf sigIt with _ | signature
    · rw [hs] at h; injection h
    rw [hs] at h
    simp only at h
    rcases hq : itemToUint 8 seqIt with _ | seqv
    · rw [hq] at h; injection h
    rw [hq] at h
    simp only at h
    rcases hdp : decodePairs pairs none [] with err | content
    · rw [hdp] at h; injection h
    rw [hdp] at h
    simp only at h
    rcases hpub : S.enrToPublic content with _ | p
    · rw [hpub] at h; injection h
    rw [hpub] at h
    simp only at h
    by_cases hver : enrVerify S ⟨seqv, S.nodeIdOf p, content, signature⟩ = true
    · rw [if_pos hver] at h
      injection h with h'
      subst h'
      refine ⟨by omega, h2', top, sigIt :: seqIt :: pairs, rfl, hi,
        h4.1, h4.2, sigIt, seqIt, pairs, rfl, hs, hq, hdp, p, hpub, rfl, hver⟩
    · rw [if_neg hver] at h
      injection h

/-- A reserved-key validation failure leaves `insert_raw_rlp` untouched. -/
theorem insert_raw_rlp_check_err {S : Scheme P} {sk : SigningKey P} {e : Enr} {k v : Bytes}
    {err : EnrError} (hc : check_spec_reserved_keys k v = .error err) :
    insert_raw_rlp S sk e k v = (.error err, e) := by
  unfold insert_raw_rlp
  rw [hc]

/-- The pre-signing size failure of `insert_raw_rlp` reverts both content
insertions, leaving the record unchanged. -/
theorem insert_raw_rlp_presize_err {S : Scheme P} {sk : SigningKey P} {e : Enr} {k v : Bytes}
    (hc : check_spec_reserved_keys k v = .ok ())
    (hsz : MAX_ENR_SIZE < enrSize { e with content :=
      (insertC (insertC e.content k v).1 (S.enrKeyName sk.pub)
        (rlpStr (S.pubEncode sk.pub))).1 }) :
    insert_raw_rlp S sk e k v = (.error .exceedsMaxSize, e) := by
  unfold insert_raw_rlp
  rw [hc]
  simp only
  rw [if_pos hsz, insertC_revert, insertC_revert]

/-- Every error path of `remove_insert` restores the record from the backup
clone: the result is either the untouched record or a success. -/
theorem remove_insert_err_or_ok {S : Scheme P} (sk : SigningKey P) (e : Enr)
    (rk : List Bytes) (ins : List (Bytes × Bytes)) :
    (remove_insert S sk e rk ins).2 = e ∨
    ∃ val, (remove_insert S sk e rk ins).1 = .ok val := by
  unfold remove_insert
  dsimp only
  split
  · exact Or.inl rfl
  · split
    · exact Or.inl rfl
    · split
      · exact Or.inl rfl
      · split
        · exact Or.inl rfl
        · exact Or.inr ⟨_, rfl⟩

/-- An intent invalid under the intent validation (`id` set to anything but
`"v4"`, or a reserved-key grammar failure) makes the insertion loop fail. -/
theorem insertAllChecked_invalid (ins : List (Bytes × Bytes)) :
    ∀ (c : Content), (∃ kv ∈ ins, (kv.1 = ID_ENR_KEY ∧ kv.2 ≠ ENR_VERSION) ∨
      ∃ err, check_spec_reserved_keys kv.1 (rlpStr kv.2) = .error err) →
    ∃ err', insertAllChecked c ins = .error err' := by
  induction ins with
  | nil =>
    intro c h
    obtain ⟨kv, hkv, _⟩ := h
    simp at hkv
  | cons hd rest ih =>
    obtain ⟨k, rawv⟩ := hd
    intro c h
    unfold insertAllChecked
    by_cases hid : k = ID_ENR_KEY ∧ rawv ≠ ENR_VERSION
    · rw [if_pos hid]
      exact ⟨_, rfl⟩
    · rw [if_neg hid]
      rcases hc : check_spec_reserved_keys k (rlpStr rawv) with err | u
      · exact ⟨err, rfl⟩
      · obtain ⟨kv, hkv, hbad⟩ := h
        rcases List.mem_cons.mp hkv with rfl | hmem
        · exfalso
          rcases hbad with hbad | ⟨err, herr⟩
          · exact hid hbad
          · rw [hc] at herr
            injection herr
        · obtain ⟨err', herr'⟩ := ih (insertC c k (rlpStr rawv)).1 ⟨kv, hmem, hbad⟩
          dsimp only
          rw [herr']
          exact ⟨err', rfl⟩

/-- An invalid insert intent makes `remove_insert` fail with the record
restored. -/
theorem remove_insert_invalid_intent {S : Scheme P} (sk : SigningKey P) (e : Enr)
    (rk : List Bytes) (ins : List (Bytes × Bytes))
    (h : ∃ kv ∈ ins, (kv.1 = ID_ENR_KEY ∧ kv.2 ≠ ENR_VERSION) ∨
      ∃ err, check_spec_reserved_keys kv.1 (rlpStr kv.2) = .error err) :
    ∃ err', remove_insert S sk e rk ins = (.error err', e) := by
  obtain ⟨err', herr'⟩ := insertAllChecked_invalid ins
    (insertC (removeAll e.content rk).1 (S.enrKeyName sk.pub)
      (rlpStr (S.pubEncode sk.pub))).1 h
  unfold remove_insert
  dsimp only
  rw [herr']
  exact ⟨err', rfl⟩

/-- An intent invalid under `to_valid_op` makes the whole validation pass of
the vector guard fail. -/
theorem validateAll_invalid (updates : List Update)
    (h : ∃ u ∈ updates, ∃ err, to_valid_op u = .error err) :
    ∃ err', validateAll updates = .error err' := by
  induction updates with
  | nil =>
    obtain ⟨u, hu, _⟩ := h
    simp at hu
  | cons hd rest ih =>
    unfold validateAll
    rcases hv : to_valid_op hd with err | op
    · exact ⟨err, rfl⟩
    · obtain ⟨u, hu, err, herr⟩ := h
      rcases List.mem_cons.mp hu with rfl | hmem
      · rw [hv] at herr
        injection herr
      · obtain ⟨err', herr'⟩ := ih ⟨u, hmem, err, herr⟩
        rw [herr']
        exact ⟨err', rfl⟩

/-- `compute_signature` never reports a size error. -/
theorem compute_signature_err_ne {S : Scheme P} {sk : SigningKey P} {e : Enr} {err : EnrError}
    (h : compute_signature S sk e = .error err) : err ≠ .exceedsMaxSize := by
  unfold compute_signature at h
  rcases hg : getData e ID_ENR_KEY with _ | d
  · rw [hg] at h
    injection h with h'
    subst h'
    simp
  · rw [hg] at h
    dsimp only at h
    split_ifs at h with hd
    · rcases hsg : sk.sign (rlp_content e) with _ | sig
      · rw [hsg] at h
        injection h with h'
        subst h'
        simp
      · rw [hsg] at h
        injection h
    · injection h with h'
      subst h'
      simp

/- Further helper lemmas about `signEnr` and the `u16` decoder. -/

theorem signEnr_err_ne {S : Scheme P} {sk : SigningKey P} {e : Enr} {err : EnrError}
    (h : signEnr S sk e = .error err) : err ≠ .exceedsMaxSize := by
  unfold signEnr at h
  rcases hc : compute_signature S sk e with err0 | sig
  · rw [hc] at h
    injection h with h'
    subst h'
    exact compute_signature_err_ne hc
  · rw [hc] at h
    injection h

theorem signEnr_ok_spec {S : Scheme P} {sk : SigningKey P} {e : Enr} {prev : Bytes} {e' : Enr}
    (h : signEnr S sk e = .ok (prev, e')) :
    prev = e.signature ∧ e'.seq = e.seq ∧ e'.node_id = e.node_id ∧ e'.content = e.content := by
  unfold signEnr at h
  rcases hc : compute_signature S sk e with err0 | sig
  · rw [hc] at h
    injection h
  · rw [hc] at h
    injection h with h'
    injection h' with h1 h2
    subst h1
    subst h2
    exact ⟨rfl, rfl, rfl, rfl⟩

theorem rlpDecodeU16_rlpNat (n : Nat) (h : n < 65536) : rlpDecodeU16 (rlpNat n) = some n := by
  have hlen : (beBytes n).length ≤ 2 := beBytes_length_le n 2 (by norm_num; omega)
  have h8 : (beBytes n).length < 256 ^ 8 := by
    have : (2 : Nat) < 256 ^ 8 := by norm_num
    omega
  unfold rlpDecodeU16 rlpDecodeData rlpDecodeItem
  rw [show rlpNat n = rlpStr (beBytes n) from rfl, parseItem_rlpStr _ h8]
  dsimp only
  rw [Option.some_bind, dataOf_rlpStr, Option.some_bind]
  unfold uintFromData
  rw [if_neg, if_pos hlen, Option.some.injEq, fromBE_beBytes]
  intro ⟨hne, hz⟩
  have hn : n ≠ 0 := by
    intro h0
    subst h0
    exact hne rfl
  have := beBytes_head_pos n hn
  omega

theorem rlpDecodeU16_zeroPadded (n : Nat) (h : n < 256) :
    rlpDecodeU16 (rlpStr [0, n]) = none := by
  have hstr : rlpStr [0, n] = [130, 0, n] := by
    unfold rlpStr
    rw [if_neg (by simp), if_pos (by simp)]
    simp
  rw [hstr]
  unfold rlpDecodeU16 rlpDecodeData rlpDecodeItem parseItem
  simp [dataOf, uintFromData]

/-- `rlp::decode::<u16>` reads only the leading item of its input: any bytes
after a minimal u16 item are ignored, not rejected. -/
theorem rlpDecodeU16_rlpNat_append (n : Nat) (h : n < 65536) (tail : Bytes) :
    rlpDecodeU16 (rlpNat n ++ tail) = some n := by
  have hlen : (beBytes n).length ≤ 2 := beBytes_length_le n 2 (by norm_num; omega)
  have h8 : (beBytes n).length < 256 ^ 8 := by
    have : (2 : Nat) < 256 ^ 8 := by norm_num
    omega
  have hp := @parseItem_append_tail (rlpStr (beBytes n)) tail
    ⟨false, beBytes n, rlpStr (beBytes n)⟩ [] (parseItem_rlpStr _ h8)
  unfold rlpDecodeU16 rlpDecodeData rlpDecodeItem
  rw [show rlpNat n = rlpStr (beBytes n) from rfl, hp]
  dsimp only
  rw [Option.some_bind, dataOf_rlpStr, Option.some_bind]
  unfold uintFromData
  rw [if_neg, if_pos hlen, Option.some.injEq, fromBE_beBytes]
  intro ⟨hne, hz⟩
  have hn : n ≠ 0 := by
    intro h0
    subst h0
    exact hne rfl
  have := beBytes_head_pos n hn
  omega

/-- C2: the claim says every successful mutation other than the privileged
direct-seq-set increments `seq` by exactly one. The code contradicts it:
`remove_insert` tests `checked_add(1)` for overflow but discards the result
(source line 783), so a successful `remove_insert` leaves `seq` unchanged
while its content does change. Evaluated here at a concrete input. -/
theorem C2_remove_insert_seq_unchanged :
    (remove_insert tScheme tKey tEnr [[110]] [([97], [1, 2, 3])]).1 =
      .ok ([none], [none]) ∧
    (remove_insert tScheme tKey tEnr [[110]] [([97], [1, 2, 3])]).2.seq = tEnr.seq ∧
    (remove_insert tScheme tKey tEnr [[110]] [([97], [1, 2, 3])]).2.content ≠ tEnr.content := by
  decide

/-- C4: every record returned by `decode` has a verifying signature — the
decoder re-verifies over the freshly parsed seq and content and rejects with
an invalid-signature error otherwise, so no unverified record is observable. -/
theorem C4_decode_verifies {P : Type} (S : Scheme P) (input : Bytes) (e : Enr)
    (h : decode S input = .ok e) : enrVerify S e = true := by
  obtain ⟨_, _, _, _, _, _, _, _, _, _, _, _, _, _, _, _, _, _, hv⟩ := decode_ok_inv h
  exact hv

/-- Witness for C4 at a concrete record. -/
theorem C4_witness : enrVerify tScheme tEnr2 = true :=
  C4_decode_verifies tScheme (enrEncode tEnr2) tEnr2 (by decide)

/-- C8: for a record satisfying the invariants, decoding its binary encoding
succeeds and returns a record equal to it (in particular equal in seq,
node_id, signature and content), and parsing its text form does the same. -/
theorem C8_roundtrip {P : Type} (S : Scheme P) (e : Enr) (h : validEnrB S e = true) :
    decode S (enrEncode e) = .ok e ∧ from_str S (to_base64 e) = .ok e :=
  ⟨decode_enrEncode h, from_str_to_base64 h⟩

/-- Witness for C8 at a concrete record. -/
theorem C8_witness :
    decode tScheme (enrEncode tEnr) = .ok tEnr ∧
    from_str tScheme (to_base64 tEnr) = .ok tEnr :=
  C8_roundtrip tScheme tEnr (by decide)

/-- C10: record equality and the hashed data are determined exactly by the
triple (seq, node_id, signature); content plays no role in either. -/
theorem C10_eq_hash :
    (∀ a b : Enr, a.seq = b.seq → a.node_id = b.node_id → a.signature = b.signature →
      enrEq a b = true ∧ enrHashData a = enrHashData b) ∧
    (∀ a b : Enr, enrEq a b = true →
      a.seq = b.seq ∧ a.node_id = b.node_id ∧ a.signature = b.signature) := by
  constructor
  · intro a b h1 h2 h3
    unfold enrEq enrHashData
    rw [h1, h2, h3]
    simp
  · intro a b h
    unfold enrEq at h
    simp only [Bool.and_eq_true, beq_iff_eq] at h
    exact ⟨h.1.1, h.1.2, h.2⟩

/-- Witness for C10: two records differing only in content compare equal and
hash identically. -/
theorem C10_witness :
    tEnr.content ≠ tEnrAltContent.content ∧ enrEq tEnr tEnrAltContent = true ∧
    enrHashData tEnr = enrHashData tEnrAltContent := by
  have H := C10_eq_hash.1 tEnr tEnrAltContent rfl rfl rfl
  exact ⟨by decide, H.1, H.2⟩

/-- C1 counterexample: the claim as stated is false. Starting from a record
satisfying the invariants whose sequence number is `u64::MAX`, `insert_raw_rlp`
of a fresh key reports `SequenceNumberTooHigh` but returns with the new pair
already inserted into the content: the record is not byte-identical to its
pre-call state. -/
theorem C1_counterexample :
    validEnrB tScheme tEnrMax = true ∧
    (insert_raw_rlp tScheme tKey tEnrMax [97] (rlpStr [1, 2, 3])).1 =
      .error .sequenceNumberTooHigh ∧
    (insert_raw_rlp tScheme tKey tEnrMax [97] (rlpStr [1, 2, 3])).2.content ≠
      tEnrMax.content := by
  decide

/-- C1 (amended): failed mutations leave the record unchanged in these cases:
a reserved-key validation failure of the insert path, the pre-signing size
failure of the insert path (whose revert is exact), and every error path of
`remove_insert` (which restores the backup clone). The insert path's
seq-overflow, signing-failure, and post-signing size error return with the
record already modified, as the counterexample shows. -/
theorem C1_partial_atomicity :
    (∀ (P : Type) (S : Scheme P) (sk : SigningKey P) (e : Enr) (k v : Bytes) (err : EnrError),
      check_spec_reserved_keys k v = .error err → insert_raw_rlp S sk e k v = (.error err, e)) ∧
    (∀ (P : Type) (S : Scheme P) (sk : SigningKey P) (e : Enr) (k v : Bytes),
      check_spec_reserved_keys k v = .ok () →
      MAX_ENR_SIZE < enrSize { e with content := (insertC (insertC e.content k v).1
        (S.enrKeyName sk.pub) (rlpStr (S.pubEncode sk.pub))).1 } →
      insert_raw_rlp S sk e k v = (.error .exceedsMaxSize, e)) ∧
    (∀ (P : Type) (S : Scheme P) (sk : SigningKey P) (e : Enr) (rk : List Bytes)
      (ins : List (Bytes × Bytes)),
      (remove_insert S sk e rk ins).2 = e ∨ ∃ val, (remove_insert S sk e rk ins).1 = .ok val) :=
  ⟨fun _ _ _ _ _ _ _ hc => insert_raw_rlp_check_err hc,
   fun _ _ _ _ _ _ hc hsz => insert_raw_rlp_presize_err hc hsz,
   fun _ _ sk e rk ins => remove_insert_err_or_ok sk e rk ins⟩

/-- Witness for the amended C1: a zero-padded port value is rejected with the
record unchanged, and an insert overflowing the size ceiling before signing is
rejected with the record unchanged. -/
theorem C1_witness :
    insert_raw_rlp tScheme tKey tEnr TCP_ENR_KEY [130, 0, 30] = (.error .invalidRlpData, tEnr) ∧
    insert_raw_rlp tScheme tKey tEnr [97] (rlpStr (List.replicate 290 5)) =
      (.error .exceedsMaxSize, tEnr) := by
  have H := C1_partial_atomicity
  exact ⟨H.1 Nat tScheme tKey tEnr TCP_ENR_KEY [130, 0, 30] .invalidRlpData (by decide),
    H.2.1 Nat tScheme tKey tEnr [97] (rlpStr (List.replicate 290 5)) (by decide) (by decide)⟩

/-- C3: whenever `decode` succeeds, none of the rejection conditions holds:
the input is within 300 bytes, the top level is a list consumed without
trailing bytes, the item scan succeeds with a nonzero even count, the input
keys are strictly ascending, every admitted pair satisfies the reserved-key
grammar, and a public key resolves from the content — equivalently, `decode`
errors whenever any of those conditions is violated. -/
theorem C3_decode_rejections {P : Type} (S : Scheme P) (input : Bytes) (e : Enr)
    (h : decode S input = .ok e) :
    input.length ≤ MAX_ENR_SIZE ∧
    topIsList input = true ∧
    (∃ top items, parseItem input = some (top, []) ∧ parseItems top.payload = some items ∧
      items.length ≠ 0 ∧ items.length % 2 = 0 ∧
      List.Chain' ltB (pairKeys (items.drop 2))) ∧
    (∀ kv ∈ e.content, check_spec_reserved_keys kv.1 kv.2 = .ok ()) ∧
    (S.enrToPublic e.content).isSome = true := by
  obtain ⟨ha, hb, top, items, hp, hi, h0, h2m, sigIt, seqIt, pairs, heq, _, _, hdp, p, hpub,
    _, _⟩ := decode_ok_inv h
  subst heq
  refine ⟨ha, hb, ⟨top, _, hp, hi, h0, h2m, ?_⟩, ?_, by rw [hpub]; rfl⟩
  · have := decodePairs_chain pairs none [] e.content hdp
    simpa using this
  · exact decodePairs_checks pairs none [] e.content hdp (by simp)

/-- Witness for C3 at a concrete decodable input. -/
theorem C3_witness :
    (enrEncode tEnr).length ≤ MAX_ENR_SIZE ∧ topIsList (enrEncode tEnr) = true ∧
    (∀ kv ∈ tEnr.content, check_spec_reserved_keys kv.1 kv.2 = .ok ()) := by
  have H := C3_decode_rejections tScheme (enrEncode tEnr) tEnr (by decide)
  exact ⟨H.1, H.2.1, H.2.2.2.1⟩

/-- C5: in the vector guard every intent is validated before any is applied,
so one invalid intent fails the call with the record unchanged; in
`remove_insert` an invalid insert intent (setting `id` to anything but `"v4"`,
or a reserved-key grammar failure) also fails the call with the record
restored — no intent of the batch remains applied. -/
theorem C5_validate_before_touch :
    (∀ (e : Enr) (updates : List Update),
      (∃ u ∈ updates, ∃ err, to_valid_op u = .error err) →
      ∃ err', guard_new_vec e updates = (.error err', e)) ∧
    (∀ (P : Type) (S : Scheme P) (sk : SigningKey P) (e : Enr) (rk : List Bytes)
      (ins : List (Bytes × Bytes)),
      (∃ kv ∈ ins, (kv.1 = ID_ENR_KEY ∧ kv.2 ≠ ENR_VERSION) ∨
        ∃ err, check_spec_reserved_keys kv.1 (rlpStr kv.2) = .error err) →
      ∃ err', remove_insert S sk e rk ins = (.error err', e)) := by
  constructor
  · intro e updates h
    obtain ⟨err', herr'⟩ := validateAll_invalid updates h
    refine ⟨err', ?_⟩
    unfold guard_new_vec
    rw [herr']
  · intro P S sk e rk ins h
    exact remove_insert_invalid_intent sk e rk ins h

/-- Witness for C5: a batch setting `id` to a bad value is rejected untouched
by the guard, and a batch with a zero-padded port is rejected untouched by
`remove_insert`. -/
theorem C5_witness :
    (∃ err', guard_new_vec tEnr [Update.insert ID_ENR_KEY [120]] = (.error err', tEnr)) ∧
    (∃ err', remove_insert tScheme tKey tEnr [[110]] [(TCP_ENR_KEY, [0, 30])] =
      (.error err', tEnr)) := by
  have H := C5_validate_before_touch
  exact ⟨H.1 tEnr _ ⟨Update.insert ID_ENR_KEY [120], by simp,
      ⟨.unsupportedIdentityScheme, by decide⟩⟩,
    H.2 Nat tScheme tKey tEnr [[110]] _ ⟨(TCP_ENR_KEY, [0, 30]), by simp,
      Or.inr ⟨.invalidRlpData, by decide⟩⟩⟩

/-- C9: `set_seq` sets the sequence number to exactly the caller's value on
success; a size failure returns `ExceedsMaxSize` with both the prior `seq` and
the prior `signature` restored; a signing failure returns the error with the
prior `seq` (and signature) untouched. -/
theorem C9_set_seq {P : Type} (S : Scheme P) (sk : SigningKey P) (e : Enr) (seqv : Nat) :
    (∀ r, set_seq S sk e seqv = (.ok (), r) → r.seq = seqv) ∧
    (∀ r, set_seq S sk e seqv = (.error .exceedsMaxSize, r) →
      r.seq = e.seq ∧ r.signature = e.signature) ∧
    (∀ r err, set_seq S sk e seqv = (.error err, r) → err ≠ .exceedsMaxSize →
      r.seq = e.seq ∧ r.signature = e.signature) := by
  unfold set_seq
  rcases hsg : signEnr S sk { e with seq := seqv } with err0 | ⟨prevSig, e2⟩
  · dsimp only
    rw [hsg]
    dsimp only
    refine ⟨?_, ?_, ?_⟩
    · intro r hr
      injection hr with h1 h2
      injection h1
    · intro r hr
      injection hr with h1 h2
      injection h1 with h1'
      exact absurd h1' (signEnr_err_ne hsg)
    · intro r err hr hne
      injection hr with h1 h2
      subst h2
      exact ⟨rfl, rfl⟩
  · obtain ⟨hprev, hseq2, _, _⟩ := signEnr_ok_spec hsg
    dsimp only
    rw [hsg]
    dsimp only
    by_cases hsz : MAX_ENR_SIZE < enrSize e2
    · rw [if_pos hsz]
      refine ⟨?_, ?_, ?_⟩
      · intro r hr
        injection hr with h1 h2
        injection h1
      · intro r hr
        injection hr with h1 h2
        subst h2
        exact ⟨rfl, by simpa using hprev⟩
      · intro r err hr hne
        injection hr with h1 h2
        injection h1 with h1'
        exact absurd h1'.symm hne
    · rw [if_neg hsz]
      refine ⟨?_, ?_, ?_⟩
      · intro r hr
        injection hr with h1 h2
        subst h2
        simpa using hseq2
      · intro r hr
        injection hr with h1 h2
        injection h1
      · intro r err hr hne
        injection hr with h1 h2
        injection h1

/-- Witness for C9: a successful direct set to 30, and a size-failing direct
set (via an oversized signature) that restores seq and signature. -/
theorem C9_witness :
    (set_seq tScheme tKey tEnr 30).2.seq = 30 ∧
    (set_seq tScheme tKeyBig tEnr 30).2.seq = tEnr.seq ∧
    (set_seq tScheme tKeyBig tEnr 30).2.signature = tEnr.signature := by
  have H1 := (C9_set_seq tScheme tKey tEnr 30).1
  have H2 := (C9_set_seq tScheme tKeyBig tEnr 30).2.1
  refine ⟨H1 (set_seq tScheme tKey tEnr 30).2 ?_, ?_⟩
  · exact Prod.ext (by decide) rfl
  · have := H2 (set_seq tScheme tKeyBig tEnr 30).2 (Prod.ext (by decide) rfl)
    exact this

/-- C6 counterexample: the claim as stated is false for `insert_raw_rlp`.
There the canonical size is checked a first time before the sequence-number
step, and `node_id` is recomputed and stored before the final size check
rather than after it: with an oversized signing key the call fails with
`ExceedsMaxSize` yet the returned record's `node_id` has already been
reassigned. -/
theorem C6_counterexample :
    (insert_raw_rlp tScheme tKeyBig tEnr [97] (rlpStr [1])).1 = .error .exceedsMaxSize ∧
    (insert_raw_rlp tScheme tKeyBig tEnr [97] (rlpStr [1])).2.node_id ≠ tEnr.node_id := by
  decide

/-- C6 (amended): `Guard::finish` performs the claimed sequence exactly — the
public-key entry is inserted first (visible in every outcome), the
sequence-number step fails with `SequenceNumberTooHigh` on u64 overflow with
seq, signature and node_id untouched, a signing failure leaves the already
incremented seq with signature and node_id untouched, a size failure leaves
the new signature stored with node_id untouched, and only on success is
`node_id` recomputed, last. `insert_raw_rlp` deviates from the claimed order:
its size check runs before the sequence step and again after signing, and
`node_id` is stored before that final size check, as the counterexample
records. -/
theorem C6_guard_finish_order {P I : Type} (S : Scheme P) (sk : SigningKey P) (e : Enr)
    (inv : I) (r : Content × Option Bytes)
    (hr : r = insertC e.content (S.enrKeyName sk.pub) (rlpStr (S.pubEncode sk.pub))) :
    (guard_finish S sk e inv).2.content = r.1 ∧
    (U64_LIMIT ≤ e.seq + 1 →
      guard_finish S sk e inv =
        (.error (.sequenceNumberTooHigh, ⟨r.2, some e.seq, none⟩),
         { e with content := r.1 })) ∧
    (e.seq + 1 < U64_LIMIT →
      ∀ err, compute_signature S sk { e with content := r.1, seq := e.seq + 1 } = .error err →
      guard_finish S sk e inv =
        (.error (.signingError, ⟨r.2, some e.seq, some e.signature⟩),
         { e with content := r.1, seq := e.seq + 1 })) ∧
    (e.seq + 1 < U64_LIMIT →
      ∀ sig, compute_signature S sk { e with content := r.1, seq := e.seq + 1 } = .ok sig →
      MAX_ENR_SIZE < enrSize { e with content := r.1, seq := e.seq + 1, signature := sig } →
      guard_finish S sk e inv =
        (.error (.exceedsMaxSize, ⟨r.2, some e.seq, some e.signature⟩),
         { e with content := r.1, seq := e.seq + 1, signature := sig })) ∧
    (e.seq + 1 < U64_LIMIT →
      ∀ sig, compute_signature S sk { e with content := r.1, seq := e.seq + 1 } = .ok sig →
      ¬ MAX_ENR_SIZE < enrSize { e with content := r.1, seq := e.seq + 1, signature := sig } →
      guard_finish S sk e inv =
        (.ok inv,
         { e with content := r.1, seq := e.seq + 1, signature := sig,
                  node_id := S.nodeIdOf sk.pub })) := by
  subst hr
  unfold guard_finish
  dsimp only
  by_cases hov : e.seq + 1 < U64_LIMIT
  · rw [show checked_add_one e.seq = some (e.seq + 1) from by
      unfold checked_add_one; rw [if_pos hov]]
    dsimp only
    rcases hcs : compute_signature S sk
        { e with content := (insertC e.content (S.enrKeyName sk.pub)
          (rlpStr (S.pubEncode sk.pub))).1, seq := e.seq + 1 } with err0 | sig0
    · dsimp only
      refine ⟨rfl, fun h => absurd hov (by omega), fun _ err herr => rfl,
        fun _ sig hsig _ => by injection hsig, fun _ sig hsig _ => by injection hsig⟩
    · dsimp only
      by_cases hsz : MAX_ENR_SIZE < enrSize
          { e with content := (insertC e.content (S.enrKeyName sk.pub)
            (rlpStr (S.pubEncode sk.pub))).1, seq := e.seq + 1, signature := sig0 }
      · rw [if_pos hsz]
        refine ⟨rfl, fun h => absurd hov (by omega), fun _ err herr => by injection herr,
          fun _ sig hsig hsz' => ?_, fun _ sig hsig hsz' => ?_⟩
        · injection hsig with h'
          subst h'
          rfl
        · injection hsig with h'
          subst h'
          exact absurd hsz hsz'
      · rw [if_neg hsz]
        refine ⟨rfl, fun h => absurd hov (by omega), fun _ err herr => by injection herr,
          fun _ sig hsig hsz' => ?_, fun _ sig hsig hsz' => ?_⟩
        · injection hsig with h'
          subst h'
          exact absurd hsz' hsz
        · injection hsig with h'
          subst h'
          rfl
  · rw [show checked_add_one e.seq = none from by
      unfold checked_add_one; rw [if_neg hov]]
    dsimp only
    refine ⟨rfl, fun _ => rfl, fun h => absurd h hov, fun h => absurd h hov,
      fun h => absurd h hov⟩

/-- Witness for the amended C6: on a record whose sequence number is u64::MAX
the guard's finishing sequence fails at step 2, with the public-key entry
inserted, the pending revert carrying the prior value and seq, and nothing
else touched. -/
theorem C6_witness :
    guard_finish tScheme tKey tEnrMax () =
      (.error (.sequenceNumberTooHigh, ⟨some (rlpStr [7]), some tEnrMax.seq, none⟩),
       { tEnrMax with content :=
          (insertC tEnrMax.content [107] (rlpStr (tScheme.pubEncode tKey.pub))).1 }) := by
  have H := (C6_guard_finish_order tScheme tKey tEnrMax ()
    (insertC tEnrMax.content [107] (rlpStr (tScheme.pubEncode tKey.pub))) rfl).2.1
  exact H (by decide)

/-- C7 counterexample: the claim's universal grammar is false on the insert
path. `rlp::decode` examines only the leading item of a value, so
`check_spec_reserved_keys` accepts `[0x01, 0xff]` under `"tcp"` (the leading
item is the single byte 1; the trailing `0xff` is ignored) and
`insert_raw_rlp` admits the pair — although the stored value is not the
minimal-form u16 encoding `rlpNat 1 = [1]`, nor even a single RLP item. Only
the top-level `decode` rejects trailing data. -/
theorem C7_counterexample :
    check_spec_reserved_keys TCP_ENR_KEY [1, 255] = .ok () ∧
    (insert_raw_rlp tScheme tKey tEnr TCP_ENR_KEY [1, 255]).1 = .ok none ∧
    lookupC (insert_raw_rlp tScheme tKey tEnr TCP_ENR_KEY [1, 255]).2.content TCP_ENR_KEY =
      some [1, 255] ∧
    rlpDecodeU16 [1, 255] = some 1 ∧ [1, 255] ≠ rlpNat 1 ∧ isSingleItem [1, 255] = false := by
  decide

/-- C7 (amended): the reserved-key grammar governs the leading RLP item of a
value. Every pair admitted by `decode` passes `check_spec_reserved_keys`
(and there the values are exact single items, so the claimed grammar holds in
full); every insert is checked before admission (a failing pair aborts
unapplied); on the reserved keys the check constrains exactly the value's
leading item: under `id` it must decode to the literal `"v4"`, under
`ip`/`ip6` to data of exactly 4/16 bytes, under the six port keys to a
minimal-form u16 — a minimal port encoding is accepted while the zero-padded
encoding of the same number is rejected. The claim's universality fails on the
insert path only in that bytes after the leading item are ignored rather than
rejected (last conjunct, and the counterexample). -/
theorem C7_reserved_grammar :
    (∀ (P : Type) (S : Scheme P) (input : Bytes) (e : Enr), decode S input = .ok e →
      ∀ kv ∈ e.content, check_spec_reserved_keys kv.1 kv.2 = .ok ()) ∧
    (∀ (P : Type) (S : Scheme P) (sk : SigningKey P) (e : Enr) (k v : Bytes) (err : EnrError),
      check_spec_reserved_keys k v = .error err → insert_raw_rlp S sk e k v = (.error err, e)) ∧
    (∀ v, check_spec_reserved_keys ID_ENR_KEY v = .ok () ↔
      rlpDecodeData v = some ENR_VERSION) ∧
    (∀ v, check_spec_reserved_keys IP_ENR_KEY v = .ok () ↔
      ∃ d, rlpDecodeData v = some d ∧ d.length = 4) ∧
    (∀ v, check_spec_reserved_keys IP6_ENR_KEY v = .ok () ↔
      ∃ d, rlpDecodeData v = some d ∧ d.length = 16) ∧
    (∀ k, (k = TCP_ENR_KEY ∨ k = TCP6_ENR_KEY ∨ k = UDP_ENR_KEY ∨ k = UDP6_ENR_KEY ∨
        k = QUIC_ENR_KEY ∨ k = QUIC6_ENR_KEY) →
      ∀ v, check_spec_reserved_keys k v = .ok () ↔ (rlpDecodeU16 v).isSome = true) ∧
    (∀ n, n < 65536 → check_spec_reserved_keys TCP_ENR_KEY (rlpNat n) = .ok ()) ∧
    (∀ n, n < 256 →
      check_spec_reserved_keys TCP_ENR_KEY (rlpStr [0, n]) = .error .invalidRlpData) ∧
    (∀ n, n < 65536 → ∀ tail,
      check_spec_reserved_keys TCP_ENR_KEY (rlpNat n ++ tail) = .ok ()) := by
  have hports : ∀ k, (k = TCP_ENR_KEY ∨ k = TCP6_ENR_KEY ∨ k = UDP_ENR_KEY ∨
      k = UDP6_ENR_KEY ∨ k = QUIC_ENR_KEY ∨ k = QUIC6_ENR_KEY) →
      ∀ v, check_spec_reserved_keys k v = .ok () ↔ (rlpDecodeU16 v).isSome = true := by
    intro k hk v
    unfold check_spec_reserved_keys
    rw [if_pos hk]
    rcases hu : rlpDecodeU16 v with _ | n <;> simp
  refine ⟨?_, ?_, ?_, ?_, ?_, hports, ?_, ?_, ?_⟩
  · intro P S input e h kv hkv
    obtain ⟨_, _, _, _, _, _, _, _, _, _, _, _, _, _, hdp, _, _, _, _⟩ := decode_ok_inv h
    exact decodePairs_checks _ none [] e.content hdp (by simp) kv hkv
  · intro P S sk e k v err hc
    exact insert_raw_rlp_check_err hc
  · intro v
    unfold check_spec_reserved_keys
    rw [if_neg (by decide), if_pos rfl]
    rcases hd : rlpDecodeData v with _ | d
    · simp
    · dsimp only
      by_cases hv : d = ENR_VERSION
      · subst hv
        simp
      · rw [if_neg hv]
        simp [hv]
  · intro v
    unfold check_spec_reserved_keys
    rw [if_neg (by decide), if_neg (by decide), if_pos rfl]
    rcases hd : rlpDecodeData v with _ | d
    · simp
    · dsimp only
      by_cases hl : d.length = 4
      · rw [if_pos hl]
        simp [hl]
      · rw [if_neg hl]
        simp [hl]
  · intro v
    unfold check_spec_reserved_keys
    rw [if_neg (by decide), if_neg (by decide), if_neg (by decide), if_pos rfl]
    rcases hd : rlpDecodeData v with _ | d
    · simp
    · dsimp only
      by_cases hl : d.length = 16
      · rw [if_pos hl]
        simp [hl]
      · rw [if_neg hl]
        simp [hl]
  · intro n hn
    exact (hports TCP_ENR_KEY (by simp) (rlpNat n)).mpr
      (by rw [rlpDecodeU16_rlpNat n hn]; rfl)
  · intro n hn
    have h0 := rlpDecodeU16_zeroPadded n hn
    unfold check_spec_reserved_keys
    rw [if_pos (by simp), h0]
  · intro n hn tail
    exact (hports TCP_ENR_KEY (by simp) (rlpNat n ++ tail)).mpr
      (by rw [rlpDecodeU16_rlpNat_append n hn tail]; rfl)

/-- Witness for the amended C7: port 30303 in minimal form is accepted, its
zero-padded single-byte variant 118 is rejected, the literal `"v4"` value
satisfies the `id` grammar, and a minimal port item followed by a stray byte
is accepted as well. -/
theorem C7_witness :
    check_spec_reserved_keys TCP_ENR_KEY (rlpNat 30303) = .ok () ∧
    check_spec_reserved_keys TCP_ENR_KEY (rlpStr [0, 118]) = .error .invalidRlpData ∧
    check_spec_reserved_keys ID_ENR_KEY (rlpStr ENR_VERSION) = .ok () ∧
    check_spec_reserved_keys TCP_ENR_KEY (rlpNat 1 ++ [255]) = .ok () := by
  have H := C7_reserved_grammar
  exact ⟨H.2.2.2.2.2.2.1 30303 (by decide), H.2.2.2.2.2.2.2.1 118 (by decide),
    (H.2.2.1 (rlpStr ENR_VERSION)).mpr (by decide),
    H.2.2.2.2.2.2.2.2 1 (by decide) [255]⟩

end EnrSpec
